import Mathlib

/-!
# Verification of the multi-git repository walker, output block, and Git operation core

This file gives a shallow embedding, in Lean 4, of the core logic of the
multi-git command-line tool (configuration overlay merging from
`src/config.rs`, the repository walker from `src/walk.rs`, the sticky
output block and its JSON mode from `src/output.rs`, and the Git
operation core from `src/git.rs`), together with theorems checking the
natural-language specification against that embedding.

Machine integers are modelled as `Nat` (none of the verified code relies
on overflow), byte strings as `String`, filesystem paths as lists of
path segments relative to the configured root, and the opaque Git
backend as explicit records of call results.
-/

namespace MultiGit

/-! ## Configuration (`src/config.rs`)

A relative path is modelled as its list of segments, relative to the
configured root. -/

abbrev RPath := List String

/-- SSH settings (`SshSettings` in `src/config.rs`). Paths are strings. -/
structure SshSettings where
  passphrase : Option String
  public_key_path : Option String
  private_key_path : String
deriving DecidableEq, Repr

/-- Per-path settings (`Settings` in `src/config.rs`). All fields are
optional.  The serde-internal `glob` bookkeeping field is not part of
the value and is omitted. -/
structure Settings where
  default_branch : Option String
  default_remote : Option String
  ssh : Option SshSettings
  editor : Option String
  ignore : Option Bool
  prune : Option Bool
deriving DecidableEq, Repr

/-- `Settings::merge` from `src/config.rs`: every field of `other` that
is set overwrites the corresponding field of `self`. -/
def Settings.merge (self other : Settings) : Settings where
  default_branch := if other.default_branch.isSome then other.default_branch else self.default_branch
  default_remote := if other.default_remote.isSome then other.default_remote else self.default_remote
  ssh := if other.ssh.isSome then other.ssh else self.ssh
  editor := if other.editor.isSome then other.editor else self.editor
  ignore := if other.ignore.isSome then other.ignore else self.ignore
  prune := if other.prune.isSome then other.prune else self.prune

/-- The empty settings record (`Settings::default()`). -/
def Settings.default : Settings where
  default_branch := none
  default_remote := none
  ssh := none
  editor := none
  ignore := none
  prune := none

/-- `SettingsMatcher` from `src/config.rs`: the overlays in file order.
Each overlay is a compiled glob, modelled as its matching predicate on
relative paths, together with its settings record.  `GlobSet::matches`
returns the indices of the matching globs in ascending order, which is
file order here. -/
structure SettingsMatcher where
  overlays : List ((RPath → Bool) × Settings)

/-- `SettingsMatcher::get`: merge every overlay whose glob matches
`path` into `base`, in file order. -/
def SettingsMatcher.get (m : SettingsMatcher) (base : Settings) (path : RPath) : Settings :=
  (m.overlays.filter fun g => g.1 path).foldl (fun acc g => acc.merge g.2) base

/-- `Config` from `src/config.rs`, restricted to the fields the walker
and the settings overlay use.  The root is implicit: all paths are
already relative to it. -/
structure Config where
  default_settings : Settings
  settings_matcher : SettingsMatcher

/-- `Config::settings`: the effective settings for a relative path. -/
def Config.settings (cfg : Config) (relative_path : RPath) : Settings :=
  cfg.settings_matcher.get cfg.default_settings relative_path

/-- The overlays of `cfg` whose glob matches `P`, in file order
(settings records only). -/
def Config.matching (cfg : Config) (P : RPath) : List Settings :=
  (cfg.settings_matcher.overlays.filter fun g => g.1 P).map fun g => g.2

/-- Specification-side description of one merged field: the value from
the last overlay in `ov` that sets the field, or the value from the
defaults `d` if no overlay sets it. -/
def mergedField (f : Settings → Option α) (d : Settings) (ov : List Settings) : Option α :=
  match (ov.filterMap f).getLast? with
  | some v => some v
  | none => f d

/-- A field accessor commutes with `Settings.merge` in the
last-write-wins sense. -/
def MergeField (f : Settings → Option α) : Prop :=
  ∀ a b : Settings, f (a.merge b) = if (f b).isSome then f b else f a

theorem mergeField_default_branch : MergeField (Settings.default_branch) := by
  intro a b; rfl

theorem mergeField_default_remote : MergeField (Settings.default_remote) := by
  intro a b; rfl

theorem mergeField_ssh : MergeField (Settings.ssh) := by
  intro a b; rfl

theorem mergeField_editor : MergeField (Settings.editor) := by
  intro a b; rfl

theorem mergeField_ignore : MergeField (Settings.ignore) := by
  intro a b; rfl

theorem mergeField_prune : MergeField (Settings.prune) := by
  intro a b; rfl

theorem foldl_merge_field (f : Settings → Option α) (hf : MergeField f) :
    ∀ (ov : List Settings) (d : Settings),
      f (ov.foldl (fun acc s => acc.merge s) d) = mergedField f d ov := by
  intro ov
  induction ov with
  | nil => intro d; simp [mergedField]
  | cons s rest ih =>
    intro d
    rw [List.foldl_cons, ih (d.merge s)]
    unfold mergedField
    rcases hlast : (rest.filterMap f).getLast? with _ | v
    · have hrest : rest.filterMap f = [] := by
        cases hr : rest.filterMap f with
        | nil => rfl
        | cons x xs => rw [hr] at hlast; simp at hlast
      rcases hfs : f s with _ | w
      · simp [List.filterMap_cons, hfs, hrest, hf d s]
      · simp [List.filterMap_cons, hfs, hrest, hf d s]
    · obtain ⟨x, xs, hr⟩ : ∃ x xs, rest.filterMap f = x :: xs := by
        cases hr : rest.filterMap f with
        | nil => rw [hr] at hlast; simp at hlast
        | cons x xs => exact ⟨x, xs, rfl⟩
      rcases hfs : f s with _ | w
      · simp [List.filterMap_cons, hfs, hlast]
      · simp only [List.filterMap_cons, hfs, hr, List.getLast?_cons_cons]
        rw [← hr, hlast]

/-- C2. For every `Config` and relative path `P`, `Config::settings(P)`
equals `default_settings` with every overlay whose glob matches `P`
merged in file order, and merging is last-write-wins per field: each
field of the result is the value from the last matching overlay that
sets it, or the `default_settings` value if no matching overlay sets
it. -/
theorem c2_settings_overlay_merge (cfg : Config) (P : RPath) :
    cfg.settings P
        = (cfg.matching P).foldl (fun acc s => acc.merge s) cfg.default_settings
      ∧ (cfg.settings P).default_branch
        = mergedField Settings.default_branch cfg.default_settings (cfg.matching P)
      ∧ (cfg.settings P).default_remote
        = mergedField Settings.default_remote cfg.default_settings (cfg.matching P)
      ∧ (cfg.settings P).ssh
        = mergedField Settings.ssh cfg.default_settings (cfg.matching P)
      ∧ (cfg.settings P).editor
        = mergedField Settings.editor cfg.default_settings (cfg.matching P)
      ∧ (cfg.settings P).ignore
        = mergedField Settings.ignore cfg.default_settings (cfg.matching P)
      ∧ (cfg.settings P).prune
        = mergedField Settings.prune cfg.default_settings (cfg.matching P) := by
  have hfold : cfg.settings P
      = (cfg.matching P).foldl (fun acc s => acc.merge s) cfg.default_settings := by
    simp [Config.settings, SettingsMatcher.get, Config.matching, List.foldl_map]
  refine ⟨hfold, ?_, ?_, ?_, ?_, ?_, ?_⟩ <;> rw [hfold]
  · exact foldl_merge_field _ mergeField_default_branch _ _
  · exact foldl_merge_field _ mergeField_default_remote _ _
  · exact foldl_merge_field _ mergeField_ssh _ _
  · exact foldl_merge_field _ mergeField_editor _ _
  · exact foldl_merge_field _ mergeField_ignore _ _
  · exact foldl_merge_field _ mergeField_prune _ _

/-! ## Output block (`src/output.rs`)

The window logic of `BlockInner` depends only on the terminal row
count, the window `range`, and the per-line finished flags; the line
contents are irrelevant to the claims and a line is represented by its
finished flag.  `range.end` is called `stop` below (`end` is reserved
in Lean). -/

/-- The window state of `BlockInner` from `src/output.rs`. -/
structure BlockInner where
  rows : Nat
  start : Nat
  stop : Nat
  finished : List Bool
deriving DecidableEq, Repr

/-- `BlockInner::add_line`: push an unfinished entry; grow the window
end if the window would still be smaller than the terminal. -/
def BlockInner.add_line (s : BlockInner) : BlockInner :=
  { s with
    finished := s.finished ++ [false]
    stop := if (s.stop - s.start) + 1 < s.rows then s.stop + 1 else s.stop }

/-- `BlockInner::finish` (interactive mode): mark the line finished;
when it is the window start, advance the start past the contiguously
finished run and extend the end by the same amount, capped at the entry
count. -/
def BlockInner.finish (s : BlockInner) (index : Nat) : BlockInner :=
  let f := s.finished.set index true
  let shift := if index = s.start then ((f.drop index).takeWhile id).length else 0
  { s with
    finished := f
    stop := min (s.stop + shift) f.length
    start := s.start + shift }

/-- `BlockInner::finish_json` (JSON mode): mark the line finished and
serialize every contiguously finished entry starting at `index`; the
window range is not consulted and not advanced.  The returned list
holds the indices of the serialized lines, in emission order. -/
def BlockInner.finish_json (s : BlockInner) (index : Nat) : BlockInner × List Nat :=
  let f := s.finished.set index true
  ({ s with finished := f }, List.range' index ((f.drop index).takeWhile id).length)

/-- An operation on a block: `Block::add_line` or `Line::finish`. -/
inductive BlockOp where
  | add_line
  | finish (index : Nat)
deriving DecidableEq, Repr

/-- The block state created by `Output::block`: empty entries, window
`0..0`, and the terminal row count. -/
def initBlock (rows : Nat) : BlockInner := ⟨rows, 0, 0, []⟩

/-- Run a sequence of operations in interactive mode. -/
def runOps (s : BlockInner) : List BlockOp → BlockInner
  | [] => s
  | .add_line :: ops => runOps s.add_line ops
  | .finish i :: ops => runOps (s.finish i) ops

/-- Run a sequence of operations in JSON mode, collecting the indices
of the serialized lines in emission order.  `add_line` is the same code
in both modes; `finish` dispatches to `finish_json`. -/
def runJson (s : BlockInner) : List BlockOp → BlockInner × List Nat
  | [] => (s, [])
  | .add_line :: ops => runJson s.add_line ops
  | .finish i :: ops =>
    let r := s.finish_json i
    let r' := runJson r.1 ops
    (r'.1, r.2 ++ r'.2)

/-- A sequence of operations is valid for a block currently holding `n`
lines when every `finish` names an existing line (the code indexes
`entries[index]`, which panics otherwise). -/
def validOps : Nat → List BlockOp → Bool
  | _, [] => true
  | n, .add_line :: ops => validOps (n + 1) ops
  | n, .finish i :: ops => i < n && validOps n ops

/-- The length of the finished prefix of the lines: the smallest index
of an unfinished line, or the line count if all are finished. -/
def prefixFinished (f : List Bool) : Nat := (f.takeWhile id).length

/-- The window invariant of the spec: `start` is the length of the
finished prefix and the window is `[start, min (start + (rows - 1), N))`. -/
def WindowInv (s : BlockInner) : Prop :=
  s.start = prefixFinished s.finished
    ∧ s.stop = min (s.start + (s.rows - 1)) s.finished.length

theorem prefixFinished_le_length (f : List Bool) : prefixFinished f ≤ f.length := by
  induction f with
  | nil => simp [prefixFinished]
  | cons b rest ih =>
    cases b with
    | true => simp [prefixFinished, List.takeWhile_cons] at ih ⊢; omega
    | false => simp [prefixFinished, List.takeWhile_cons]

theorem prefixFinished_append_false (f : List Bool) :
    prefixFinished (f ++ [false]) = prefixFinished f := by
  induction f with
  | nil => simp [prefixFinished]
  | cons b rest ih =>
    cases b with
    | true => simp [prefixFinished, List.takeWhile_cons] at ih ⊢; omega
    | false => simp [prefixFinished, List.takeWhile_cons]

theorem getElem?_lt_prefixFinished (f : List Bool) (j : Nat) (h : j < prefixFinished f) :
    f[j]? = some true := by
  induction f generalizing j with
  | nil => simp [prefixFinished] at h
  | cons b rest ih =>
    cases b with
    | false => simp [prefixFinished, List.takeWhile_cons] at h
    | true =>
      cases j with
      | zero => simp
      | succ j =>
        simp only [prefixFinished, List.takeWhile_cons] at h
        simp only [List.getElem?_cons_succ]
        exact ih j (by simpa [prefixFinished] using Nat.lt_of_succ_lt_succ h)

theorem getElem?_at_prefixFinished (f : List Bool) (h : prefixFinished f < f.length) :
    f[prefixFinished f]? = some false := by
  induction f with
  | nil => simp at h
  | cons b rest ih =>
    cases b with
    | false => simp [prefixFinished, List.takeWhile_cons]
    | true =>
      simp only [prefixFinished, List.takeWhile_cons] at h ⊢
      simpa [prefixFinished] using ih (by simpa [prefixFinished] using h)

theorem prefixFinished_set_true_ne (f : List Bool) (i : Nat)
    (h : i ≠ prefixFinished f) :
    prefixFinished (f.set i true) = prefixFinished f := by
  induction f generalizing i with
  | nil => simp
  | cons b rest ih =>
    cases b with
    | true =>
      cases i with
      | zero => simp [prefixFinished, List.takeWhile_cons]
      | succ j =>
        simp only [prefixFinished, List.takeWhile_cons, id] at h ⊢
        simp only [List.set_cons_succ, List.takeWhile_cons]
        have := ih j (by simpa [prefixFinished] using fun hc => h (by simp [prefixFinished, hc]))
        simpa [prefixFinished] using this
    | false =>
      cases i with
      | zero => simp [prefixFinished, List.takeWhile_cons] at h
      | succ j => simp [prefixFinished, List.takeWhile_cons]

theorem prefixFinished_drop (f : List Bool) (k : Nat)
    (h : ∀ j, j < k → f[j]? = some true) :
    prefixFinished f = k + prefixFinished (f.drop k) := by
  induction k generalizing f with
  | zero => simp
  | succ k ih =>
    have h0 : f[0]? = some true := h 0 (Nat.succ_pos k)
    cases f with
    | nil => simp at h0
    | cons b rest =>
      simp only [List.getElem?_cons_zero, Option.some_inj] at h0
      subst h0
      have := ih rest (fun j hj => by
        have := h (j + 1) (by omega)
        simpa using this)
      simp only [prefixFinished, List.takeWhile_cons, id] at this ⊢
      simp only [List.drop_succ_cons]
      simp [prefixFinished] at this ⊢
      omega

theorem windowInv_add_line (s : BlockInner) (h : WindowInv s) :
    WindowInv s.add_line := by
  obtain ⟨h1, h2⟩ := h
  have hle : prefixFinished s.finished ≤ s.finished.length :=
    prefixFinished_le_length s.finished
  constructor
  · simpa [BlockInner.add_line, prefixFinished_append_false] using h1
  · simp only [BlockInner.add_line, List.length_append, List.length_cons,
      List.length_nil]
    split <;> omega

theorem windowInv_finish (s : BlockInner) (i : Nat) (h : WindowInv s)
    (hi : i < s.finished.length) :
    WindowInv (s.finish i) := by
  obtain ⟨h1, h2⟩ := h
  have hle : prefixFinished s.finished ≤ s.finished.length :=
    prefixFinished_le_length s.finished
  by_cases hstart : i = s.start
  · -- finishing the window start: the start advances past the run
    have hpre : ∀ j, j < i → (s.finished.set i true)[j]? = some true := by
      intro j hj
      rw [List.getElem?_set_ne (by omega)]
      exact getElem?_lt_prefixFinished s.finished j (by omega)
    have hdrop := prefixFinished_drop (s.finished.set i true) i hpre
    have hshift : prefixFinished ((s.finished.set i true).drop i)
        ≤ s.finished.length - i := by
      have := prefixFinished_le_length ((s.finished.set i true).drop i)
      simpa using this
    constructor
    · simp only [BlockInner.finish, if_pos hstart]
      simp only [prefixFinished] at hdrop ⊢
      omega
    · simp only [BlockInner.finish, if_pos hstart, List.length_set]
      simp only [prefixFinished] at hshift
      omega
  · -- finishing elsewhere: the window does not move
    constructor
    · simp only [BlockInner.finish, if_neg hstart]
      rw [prefixFinished_set_true_ne s.finished i (h1 ▸ hstart)]
      omega
    · simp only [BlockInner.finish, if_neg hstart, List.length_set]
      omega

theorem windowInv_runOps (s : BlockInner) (ops : List BlockOp)
    (h : WindowInv s) (hv : validOps s.finished.length ops = true) :
    WindowInv (runOps s ops) := by
  induction ops generalizing s with
  | nil => exact h
  | cons op ops ih =>
    cases op with
    | add_line =>
      simp only [validOps] at hv
      have hlen : s.add_line.finished.length = s.finished.length + 1 := by
        simp [BlockInner.add_line]
      exact ih s.add_line (windowInv_add_line s h) (by rw [hlen]; exact hv)
    | finish i =>
      simp only [validOps, Bool.and_eq_true, decide_eq_true_eq] at hv
      have hlen : (s.finish i).finished.length = s.finished.length := by
        simp [BlockInner.finish]
      exact ih (s.finish i) (windowInv_finish s i h hv.1) (by rw [hlen]; exact hv.2)

/-- C7. For every valid sequence of `add_line` and `finish` operations
on a block created with `R` terminal rows, the visible window invariant
holds after the sequence (hence after each operation, since every
prefix of a valid sequence is valid): every line before `start` is
finished, the line at `start` (when one exists) is unfinished — so
`start` is the smallest index of an unfinished line — the window is
`[start, min (start + (R - 1), N))`, and the window never contains more
than `R - 1` lines. -/
theorem c7_window_invariant (rows : Nat) (ops : List BlockOp)
    (hv : validOps 0 ops = true) :
    (∀ j, j < (runOps (initBlock rows) ops).start →
        (runOps (initBlock rows) ops).finished[j]? = some true)
      ∧ ((runOps (initBlock rows) ops).start
            < (runOps (initBlock rows) ops).finished.length →
          (runOps (initBlock rows) ops).finished[
            (runOps (initBlock rows) ops).start]? = some false)
      ∧ (runOps (initBlock rows) ops).stop
          = min ((runOps (initBlock rows) ops).start + (rows - 1))
              (runOps (initBlock rows) ops).finished.length
      ∧ (runOps (initBlock rows) ops).stop - (runOps (initBlock rows) ops).start
          ≤ rows - 1 := by
  have hrows : (runOps (initBlock rows) ops).rows = rows := by
    clear hv
    suffices h : ∀ s : BlockInner, (runOps s ops).rows = s.rows from h (initBlock rows)
    induction ops with
    | nil => intro s; rfl
    | cons op ops ih =>
      intro s
      cases op with
      | add_line =>
        simp only [runOps]
        rw [ih s.add_line]
        rfl
      | finish i =>
        simp only [runOps]
        rw [ih (s.finish i)]
        rfl
  have hinv : WindowInv (runOps (initBlock rows) ops) := by
    refine windowInv_runOps (initBlock rows) ops ⟨rfl, by simp [initBlock]⟩ hv
  obtain ⟨h1, h2⟩ := hinv
  rw [hrows] at h2
  refine ⟨?_, ?_, h2, by omega⟩
  · intro j hj
    exact getElem?_lt_prefixFinished _ j (h1 ▸ hj)
  · intro hlt
    rw [h1] at hlt ⊢
    exact getElem?_at_prefixFinished _ hlt

/-- Witness for C7 at a concrete run: three rows, three lines, finishes
out of order. -/
theorem c7_window_invariant_witness :
    validOps 0 [.add_line, .add_line, .add_line, .finish 1, .finish 0] = true
      ∧ ((∀ j, j < (runOps (initBlock 3)
              [.add_line, .add_line, .add_line, .finish 1, .finish 0]).start →
            (runOps (initBlock 3)
              [.add_line, .add_line, .add_line, .finish 1, .finish 0]).finished[j]?
              = some true)
          ∧ ((runOps (initBlock 3)
                [.add_line, .add_line, .add_line, .finish 1, .finish 0]).start
                < (runOps (initBlock 3)
                    [.add_line, .add_line, .add_line, .finish 1, .finish 0]).finished.length →
              (runOps (initBlock 3)
                [.add_line, .add_line, .add_line, .finish 1, .finish 0]).finished[
                (runOps (initBlock 3)
                  [.add_line, .add_line, .add_line, .finish 1, .finish 0]).start]?
                = some false)
          ∧ (runOps (initBlock 3)
                [.add_line, .add_line, .add_line, .finish 1, .finish 0]).stop
              = min ((runOps (initBlock 3)
                    [.add_line, .add_line, .add_line, .finish 1, .finish 0]).start + (3 - 1))
                  (runOps (initBlock 3)
                    [.add_line, .add_line, .add_line, .finish 1, .finish 0]).finished.length
          ∧ (runOps (initBlock 3)
                [.add_line, .add_line, .add_line, .finish 1, .finish 0]).stop
              - (runOps (initBlock 3)
                  [.add_line, .add_line, .add_line, .finish 1, .finish 0]).start
              ≤ 3 - 1) :=
  ⟨by decide, c7_window_invariant 3 _ (by decide)⟩

/-- The indices of the `finish` operations of a sequence, in call
order. -/
def finishIndices : List BlockOp → List Nat
  | [] => []
  | .add_line :: ops => finishIndices ops
  | .finish i :: ops => i :: finishIndices ops

/-- C1 counterexample.  In JSON mode, finishing line 1 before line 0
serializes line 1 twice (output `[1, 0, 1]`), because `finish_json`
serializes the contiguously finished run starting at the finished
*index*, not at the window start, and never advances the window start.
This refutes the claim that each finished line is serialized exactly
once and in ascending line order. -/
theorem c1_json_duplicate_counterexample :
    validOps 0 [BlockOp.add_line, .add_line, .finish 1, .finish 0] = true
      ∧ (runJson (initBlock 5) [.add_line, .add_line, .finish 1, .finish 0]).2 = [1, 0, 1]
      ∧ ¬ (runJson (initBlock 5) [.add_line, .add_line, .finish 1, .finish 0]).2.Nodup := by
  refine ⟨by decide, by decide, by decide⟩

theorem runJson_out_ascending (ops : List BlockOp) :
    ∀ (s : BlockInner) (past : List Nat),
      validOps s.finished.length ops = true →
      (∀ j, s.finished[j]? = some true ↔ j ∈ past) →
      (∀ p ∈ past, ∀ q ∈ finishIndices ops, p < q) →
      (finishIndices ops).Pairwise (· < ·) →
      (runJson s ops).2 = finishIndices ops := by
  induction ops with
  | nil => intro s past _ _ _ _; rfl
  | cons op ops ih =>
    intro s past hv hfin hbound hmono
    cases op with
    | add_line =>
      simp only [runJson, finishIndices] at *
      have hlen : s.add_line.finished.length = s.finished.length + 1 := by
        simp [BlockInner.add_line]
      refine ih s.add_line past (by rw [hlen]; exact hv) ?_ hbound hmono
      intro j
      have hmem : j ∈ past → j < s.finished.length := by
        intro hj
        have := (hfin j).mpr hj
        obtain ⟨hlt, -⟩ := List.getElem?_eq_some_iff.mp this
        exact hlt
      rcases Nat.lt_trichotomy j s.finished.length with hlt | heq | hgt
      · rw [show s.add_line.finished = s.finished ++ [false] from rfl,
          List.getElem?_append_left hlt]
        exact hfin j
      · subst heq
        rw [show s.add_line.finished = s.finished ++ [false] from rfl,
          List.getElem?_concat_length]
        constructor
        · intro hc; cases hc
        · intro hj; exact absurd (hmem hj) (by omega)
      · rw [show s.add_line.finished = s.finished ++ [false] from rfl,
          List.getElem?_eq_none (by simp; omega)]
        constructor
        · intro hc; cases hc
        · intro hj; exact absurd (hmem hj) (by omega)
    | finish i =>
      simp only [validOps, Bool.and_eq_true, decide_eq_true_eq] at hv
      obtain ⟨hi, hv⟩ := hv
      have hpast_lt : ∀ p ∈ past, p < i := by
        intro p hp
        exact hbound p hp i (by simp [finishIndices])
      -- the run of finished lines starting at i has length exactly 1
      have hset_i : (s.finished.set i true)[i]? = some true :=
        List.getElem?_set_eq_of_lt true hi
      have hnext : ∀ b, (s.finished.set i true)[i + 1]? = some b → b = false := by
        intro b hb
        rw [List.getElem?_set_ne (by omega)] at hb
        cases b with
        | false => rfl
        | true =>
          have := (hfin (i + 1)).mp hb
          exact absurd (hpast_lt (i + 1) this) (by omega)
      have hrun : ((s.finished.set i true).drop i).takeWhile id = [true] := by
        have hi' : i < (s.finished.set i true).length := by simpa using hi
        rw [List.drop_eq_getElem_cons hi']
        have hgi : (s.finished.set i true)[i] = true := by
          obtain ⟨h, hval⟩ := List.getElem?_eq_some_iff.mp hset_i
          exact hval
        rw [hgi, List.takeWhile_cons]
        simp only [id, if_pos rfl]
        rcases Nat.lt_or_ge (i + 1) (s.finished.set i true).length with hlt | hge
        · rw [List.drop_eq_getElem_cons hlt]
          have : (s.finished.set i true)[i + 1]? = some ((s.finished.set i true)[i + 1]) := by
            simp [hlt]
          have hfalse := hnext _ this
          rw [hfalse, List.takeWhile_cons]
          simp
        · rw [List.drop_eq_nil_iff.mpr hge]
          simp
      simp only [runJson, BlockInner.finish_json, finishIndices]
      rw [hrun]
      simp only [List.length_cons, List.length_nil, Nat.zero_add, List.range'_one,
        List.cons_append, List.nil_append, List.singleton_append]
      have hmono' := List.pairwise_cons.mp hmono
      have hih := ih ⟨s.rows, s.start, s.stop, s.finished.set i true⟩ (i :: past)
        (by simpa using hv)
        (by
          intro j
          by_cases hj : j = i
          · subst hj
            simp [hset_i]
          · simp only [List.getElem?_set_ne (fun h => hj h.symm)]
            rw [hfin j]
            simp [hj, List.mem_cons])
        (by
          intro p hp q hq
          rcases List.mem_cons.mp hp with hp | hp
          · subst hp; exact hmono'.1 q hq
          · exact hbound p hp q (List.mem_cons_of_mem _ hq))
        hmono'.2
      rw [hih]

/-- C1 (amended).  In JSON mode, `finish(i)` serializes exactly the
contiguously finished lines starting at index `i` — not at the window
start, which is neither consulted nor advanced.  Consequently, when the
lines are finished in walker discovery order (strictly ascending
indices), each finished line is serialized exactly once and the output
lists the finished lines in ascending order; out-of-order finishes can
serialize a line more than once (see the counterexample). -/
theorem c1_json_discovery_order (rows : Nat) (ops : List BlockOp)
    (hv : validOps 0 ops = true)
    (hmono : (finishIndices ops).Pairwise (· < ·)) :
    (runJson (initBlock rows) ops).2 = finishIndices ops :=
  runJson_out_ascending ops (initBlock rows) [] hv
    (by intro j; simp [initBlock]) (by intro p hp; cases hp) hmono

/-- Witness for C1 (amended): two lines finished in discovery order are
each serialized exactly once, in order. -/
theorem c1_json_discovery_order_witness :
    validOps 0 [BlockOp.add_line, .add_line, .finish 0, .finish 1] = true
      ∧ (finishIndices [BlockOp.add_line, .add_line, .finish 0, .finish 1]).Pairwise (· < ·)
      ∧ (runJson (initBlock 5) [.add_line, .add_line, .finish 0, .finish 1]).2
        = finishIndices [BlockOp.add_line, .add_line, .finish 0, .finish 1] :=
  ⟨by decide, by decide, c1_json_discovery_order 5 _ (by decide) (by decide)⟩

/-! ## Git operation core (`src/git.rs`)

Byte strings (`BString`) are modelled as lists of characters.  The
opaque git2 backend is modelled by records of call results. -/

/-- A byte string. -/
abbrev BStr := List Char

/-- The error code of a git2 error, restricted to the codes the
verified code inspects. -/
inductive GitErrorCode where
  | NotFound
  | Generic
deriving DecidableEq, Repr

/-- The error class of a git2 error, restricted to the classes the
verified code inspects (`cls` stands for git2's `class`, reserved in
Lean). -/
inductive GitErrorClass where
  | Reference
  | Config
  | Repository
  | NoneClass
deriving DecidableEq, Repr

/-- A git2 backend error. -/
structure GitError where
  code : GitErrorCode
  cls : GitErrorClass
  msg : String
deriving DecidableEq, Repr

/-- `git2::Error::from_str`. -/
def GitError.from_str (msg : String) : GitError := ⟨.Generic, .NoneClass, msg⟩

/-- The crate error type (`src/error.rs`), restricted to what the
verified code observes: a plain message (`Error::from_message`), a
wrapped backend error, or a context layer. -/
inductive Error where
  | message (msg : String)
  | git (e : GitError)
  | context (msg : String) (source : Error)
deriving DecidableEq, Repr

/-- `Error::from_message`. -/
def Error.from_message (msg : String) : Error := .message msg

/-- `HeadStatusKind` from `src/git.rs`. -/
inductive HeadStatusKind where
  | Unborn
  | Detached
  | Branch
deriving DecidableEq, Repr

/-- `HeadStatus` from `src/git.rs`. -/
structure HeadStatus where
  name : BStr
  kind : HeadStatusKind
deriving DecidableEq, Repr

/-- `UpstreamStatus` from `src/git.rs` (`None`, `Upstream{ahead,behind}`,
`Gone`). -/
inductive UpstreamStatus where
  | none
  | upstream (ahead behind : Nat)
  | gone
deriving DecidableEq, Repr

/-- `WorkingTreeStatus` from `src/git.rs`. -/
structure WorkingTreeStatus where
  working_changed : Bool
  index_changed : Bool
deriving DecidableEq, Repr

/-- `RepositoryStatus` from `src/git.rs`. -/
structure RepositoryStatus where
  head : HeadStatus
  upstream : UpstreamStatus
  working_tree : WorkingTreeStatus
  default_branch : Option String
deriving DecidableEq, Repr

/-- `PullOutcome` from `src/git.rs`. -/
inductive PullOutcome where
  | UpToDate (branch : String)
  | CreatedUnborn (branch : String)
  | FastForwarded (branch : String)
deriving DecidableEq, Repr

/-- `HeadStatus::is_branch`. -/
def HeadStatus.is_branch (h : HeadStatus) : Bool :=
  match h.kind with
  | .Branch => true
  | _ => false

/-- `HeadStatus::is_unborn`. -/
def HeadStatus.is_unborn (h : HeadStatus) : Bool :=
  match h.kind with
  | .Unborn => true
  | _ => false

/-- `HeadStatus::on_branch`: on an (existing or unborn) branch of the
given name. -/
def HeadStatus.on_branch (h : HeadStatus) (name : BStr) : Bool :=
  match h.kind with
  | .Branch | .Unborn => h.name = name
  | .Detached => false

/-- `UpstreamStatus::exists`. -/
def UpstreamStatus.exists_upstream : UpstreamStatus → Bool
  | .upstream _ _ => true
  | .none | .gone => false

/-- `WorkingTreeStatus::is_dirty`. -/
def WorkingTreeStatus.is_dirty (w : WorkingTreeStatus) : Bool :=
  w.index_changed || w.working_changed

/-! ### HEAD classification (`Repository::head_status`) -/

/-- The `refs/heads/` namespace constant from `src/git.rs`. -/
def REFS_HEADS_NAMESPACE : BStr := "refs/heads/".toList

/-- The `HEAD` reference as the backend returns it: its symbolic target
(if any) and the result of resolving it. -/
structure HeadRef where
  symbolic_target : Option BStr
  resolve : Except GitError Unit
deriving Repr

/-- The backend calls `Repository::head_status` makes:
`find_reference("HEAD")`, and the peel/describe/format chain used for
a detached HEAD (tags preferred, commit oid fallback). -/
structure HeadEnv where
  find_head : Except GitError HeadRef
  describe : Except GitError BStr
deriving Repr

/-- The detached arm of `Repository::head_status`: peel HEAD to an
object and describe it. -/
def head_status_detached (env : HeadEnv) : Except GitError HeadStatus :=
  match env.describe with
  | .ok desc => .ok ⟨desc, .Detached⟩
  | .error e => .error e

/-- `Repository::head_status` from `src/git.rs`. -/
def head_status (env : HeadEnv) : Except GitError HeadStatus :=
  match env.find_head with
  | .error e => .error e
  | .ok head =>
    match head.symbolic_target with
    | some name =>
      if REFS_HEADS_NAMESPACE.isPrefixOf name then
        let bname := name.drop REFS_HEADS_NAMESPACE.length
        match head.resolve with
        | .ok _ => .ok ⟨bname, .Branch⟩
        | .error err =>
          if err.cls = GitErrorClass.Reference ∧ err.code = GitErrorCode.NotFound then
            .ok ⟨bname, .Unborn⟩
          else
            .error err
      else
        head_status_detached env
    | none => head_status_detached env

/-- C9. HEAD classification is total over the three cases: when HEAD
symbolically targets `refs/heads/<name>` and the ref resolves, the
result is `Branch(name)`; when resolving fails with a
reference-not-found error, the result is `Unborn(name)`; otherwise (no
symbolic target, or a target outside `refs/heads/`) the result is
`Detached(description)` with the describe-with-tags output.  In the
first two cases `name` is the symbolic target with the `refs/heads/`
prefix stripped. -/
theorem c9_head_classification (env : HeadEnv) :
    (∀ head rest, env.find_head = .ok head →
        head.symbolic_target = some (REFS_HEADS_NAMESPACE ++ rest) →
        ((head.resolve = .ok () → head_status env = .ok ⟨rest, .Branch⟩)
          ∧ (∀ e, head.resolve = .error e → e.cls = .Reference → e.code = .NotFound →
              head_status env = .ok ⟨rest, .Unborn⟩)
          ∧ (∀ e, head.resolve = .error e →
              ¬ (e.cls = GitErrorClass.Reference ∧ e.code = GitErrorCode.NotFound) →
              head_status env = .error e)))
      ∧ (∀ head, env.find_head = .ok head →
          (∀ name, head.symbolic_target = some name →
            REFS_HEADS_NAMESPACE.isPrefixOf name = false) →
          head_status env = head_status_detached env)
      ∧ (∀ desc, env.describe = .ok desc →
          head_status_detached env = .ok ⟨desc, .Detached⟩) := by
  refine ⟨?_, ?_, ?_⟩
  · intro head rest hfind htarget
    have hpre : REFS_HEADS_NAMESPACE.isPrefixOf (REFS_HEADS_NAMESPACE ++ rest) = true := by
      rw [List.isPrefixOf_iff_prefix]
      exact List.prefix_append _ _
    have hdrop : (REFS_HEADS_NAMESPACE ++ rest).drop REFS_HEADS_NAMESPACE.length = rest :=
      List.drop_left _ _
    refine ⟨?_, ?_, ?_⟩
    · intro hres
      simp [head_status, hfind, htarget, hpre, hdrop, hres]
    · intro e hres hcls hcode
      simp [head_status, hfind, htarget, hpre, hdrop, hres, hcls, hcode]
    · intro e hres hne
      simp [head_status, hfind, htarget, hpre, hdrop, hres, hne]
  · intro head hfind hnot
    cases htarget : head.symbolic_target with
    | none => simp [head_status, hfind, htarget]
    | some name => simp [head_status, hfind, htarget, hnot name htarget]
  · intro desc hdesc
    simp [head_status_detached, hdesc]

/-- Witness for C9 at concrete backends: a resolvable branch target, an
unresolvable one, and a detached HEAD. -/
theorem c9_head_classification_witness :
    head_status ⟨.ok ⟨some (REFS_HEADS_NAMESPACE ++ "main".toList), .ok ()⟩, .ok []⟩
        = .ok ⟨"main".toList, .Branch⟩
      ∧ head_status ⟨.ok ⟨some (REFS_HEADS_NAMESPACE ++ "main".toList),
            .error ⟨.NotFound, .Reference, "reference not found"⟩⟩, .ok []⟩
        = .ok ⟨"main".toList, .Unborn⟩
      ∧ head_status_detached ⟨.ok ⟨none, .ok ()⟩, .ok "v1.0".toList⟩
        = .ok ⟨"v1.0".toList, .Detached⟩ :=
  ⟨((c9_head_classification _).1 _ _ rfl rfl).1 rfl,
    (((c9_head_classification _).1 _ _ rfl rfl).2.1 _ rfl rfl rfl),
    ((c9_head_classification _).2.2 _ rfl)⟩

/-! ### Credential state machine (`CredentialsState` in `src/git.rs`) -/

/-- The `allowed_types` bitflags of a credential-callback invocation
(`git2::CredentialType`), restricted to the flags the code inspects. -/
structure CredentialType where
  username : Bool
  ssh_key : Bool
  user_pass_plaintext : Bool
  default : Bool
deriving DecidableEq, Repr

/-- The kind of credential returned by a callback invocation
(the four `git2::Cred` constructors the code uses). -/
inductive Cred where
  | ssh_key
  | ssh_key_from_agent
  | credential_helper
  | default
deriving DecidableEq, Repr

/-- `CredentialsState` from `src/git.rs`. -/
structure CredentialsState where
  tried_ssh_key_from_agent : Bool
  tried_ssh_key_from_config : Bool
  ssh_username_requested : Bool
  tried_cred_helper : Bool
deriving DecidableEq, Repr

/-- `CredentialsState::default()`. -/
def CredentialsState.init : CredentialsState := ⟨false, false, false, false⟩

/-- The tail of `CredentialsState::get` reached when no SSH key is
returned: the credential-helper check, then the default-credential
check, then failure. -/
def helper_step (s : CredentialsState) (allowed : CredentialType) :
    Except GitError Cred × CredentialsState :=
  if allowed.user_pass_plaintext && !s.tried_cred_helper then
    (.ok .credential_helper, { s with tried_cred_helper := true })
  else if allowed.default then
    (.ok .default, s)
  else
    (.error (GitError.from_str "no credentials found"), s)

/-- The SSH-agent step of `CredentialsState::get`. -/
def agent_step (s : CredentialsState) (allowed : CredentialType) :
    Except GitError Cred × CredentialsState :=
  if !s.tried_ssh_key_from_agent then
    (.ok .ssh_key_from_agent, { s with tried_ssh_key_from_agent := true })
  else
    helper_step s allowed

/-- `CredentialsState::get` from `src/git.rs`.  The URL and username do
not influence which credential kind is returned and are omitted. -/
def CredentialsState.get (s : CredentialsState) (settings : Settings)
    (allowed : CredentialType) : Except GitError Cred × CredentialsState :=
  let s := if allowed.username then { s with ssh_username_requested := true } else s
  if allowed.ssh_key then
    if !s.tried_ssh_key_from_config then
      let s := { s with tried_ssh_key_from_config := true }
      match settings.ssh with
      | some _ => (.ok .ssh_key, s)
      | none => agent_step s allowed
    else
      agent_step s allowed
  else
    helper_step s allowed

/-- A whole fetch: the callback results for a sequence of invocations
with the given `allowed_types` values, threading the state. -/
def runGet (s : CredentialsState) (settings : Settings) :
    List CredentialType → List (Except GitError Cred)
  | [] => []
  | a :: rest =>
    let r := s.get settings a
    r.1 :: runGet r.2 settings rest

instance {ε α : Type} [DecidableEq ε] [DecidableEq α] : DecidableEq (Except ε α) := fun a b =>
  match a, b with
  | .ok x, .ok y => decidable_of_iff (x = y) (by simp)
  | .error x, .error y => decidable_of_iff (x = y) (by simp)
  | .ok _, .error _ => isFalse (by simp)
  | .error _, .ok _ => isFalse (by simp)

/-- The claim as stated: for every fetch and every sequence of
invocations, the callback never returns the same credential kind
twice. -/
def CredentialKindsOnce : Prop :=
  ∀ (settings : Settings) (allowed : List CredentialType),
    ((runGet CredentialsState.init settings allowed).filterMap
      fun r => match r with | .ok c => some c | .error _ => none).Nodup

/-- C6 counterexample.  Two invocations whose `allowed_types` is exactly
`DEFAULT` both return the default credential: the code keeps no
`tried_default` flag, so the same credential kind is returned twice and
the at-most-four-returns termination bound fails as well. -/
theorem c6_default_repeats_counterexample :
    ¬ CredentialKindsOnce := by
  intro h
  have := h Settings.default
    [⟨false, false, false, true⟩, ⟨false, false, false, true⟩]
  exact absurd this (by decide)

/-- The number of `tried_*` flags set among the three once-only kinds. -/
def CredentialsState.triedCount (s : CredentialsState) : Nat :=
  (if s.tried_ssh_key_from_config then 1 else 0)
    + (if s.tried_ssh_key_from_agent then 1 else 0)
    + (if s.tried_cred_helper then 1 else 0)

theorem get_flags_monotone (s : CredentialsState) (settings : Settings)
    (allowed : CredentialType) :
    (s.tried_ssh_key_from_config = true →
        ((s.get settings allowed).2).tried_ssh_key_from_config = true)
      ∧ (s.tried_ssh_key_from_agent = true →
        ((s.get settings allowed).2).tried_ssh_key_from_agent = true)
      ∧ (s.tried_cred_helper = true →
        ((s.get settings allowed).2).tried_cred_helper = true) := by
  simp only [CredentialsState.get, agent_step, helper_step]
  rcases settings.ssh with _ | k <;>
    rcases allowed with ⟨u, sk, up, d⟩ <;>
    rcases s with ⟨a, c, r, h⟩ <;>
    cases u <;> cases sk <;> cases up <;> cases d <;>
    cases a <;> cases c <;> cases h <;> simp

theorem get_ok_flags (s : CredentialsState) (settings : Settings)
    (allowed : CredentialType) :
    ((s.get settings allowed).1 = .ok .ssh_key →
        s.tried_ssh_key_from_config = false
          ∧ ((s.get settings allowed).2).tried_ssh_key_from_config = true)
      ∧ ((s.get settings allowed).1 = .ok .ssh_key_from_agent →
        s.tried_ssh_key_from_agent = false
          ∧ ((s.get settings allowed).2).tried_ssh_key_from_agent = true)
      ∧ ((s.get settings allowed).1 = .ok .credential_helper →
        s.tried_cred_helper = false
          ∧ ((s.get settings allowed).2).tried_cred_helper = true) := by
  simp only [CredentialsState.get, agent_step, helper_step]
  rcases settings.ssh with _ | k <;>
    rcases allowed with ⟨u, sk, up, d⟩ <;>
    rcases s with ⟨a, c, r, h⟩ <;>
    cases u <;> cases sk <;> cases up <;> cases d <;>
    cases a <;> cases c <;> cases h <;> simp

theorem runGet_count_zero (flag : CredentialsState → Bool) (kind : Cred)
    (hmono : ∀ s settings a, flag s = true → flag ((CredentialsState.get s settings a).2) = true)
    (hok : ∀ s settings a, (CredentialsState.get s settings a).1 = .ok kind →
        flag s = false) :
    ∀ (allowed : List CredentialType) (s : CredentialsState) (settings : Settings),
      flag s = true → (runGet s settings allowed).count (.ok kind) = 0 := by
  intro allowed
  induction allowed with
  | nil => intro s settings _; rfl
  | cons a rest ih =>
    intro s settings hflag
    simp only [runGet, List.count_cons]
    rw [ih _ settings (hmono s settings a hflag)]
    have hne : ((CredentialsState.get s settings a).1 == Except.ok kind) = false := by
      rw [beq_eq_false_iff_ne]
      intro hc
      exact absurd (hok s settings a hc) (by simp [hflag])
    simp [hne]

theorem runGet_count_le_one (flag : CredentialsState → Bool) (kind : Cred)
    (hmono : ∀ s settings a, flag s = true → flag ((CredentialsState.get s settings a).2) = true)
    (hok : ∀ s settings a, (CredentialsState.get s settings a).1 = .ok kind →
        flag s = false ∧ flag ((CredentialsState.get s settings a).2) = true) :
    ∀ (allowed : List CredentialType) (s : CredentialsState) (settings : Settings),
      (runGet s settings allowed).count (.ok kind) ≤ 1 := by
  intro allowed
  induction allowed with
  | nil => intro s settings; simp [runGet]
  | cons a rest ih =>
    intro s settings
    simp only [runGet, List.count_cons]
    by_cases hk : (CredentialsState.get s settings a).1 = .ok kind
    · have hflag := (hok s settings a hk).2
      rw [runGet_count_zero flag kind hmono (fun s settings a h => (hok s settings a h).1)
        rest _ settings hflag]
      simp [hk]
    · have hne : ((CredentialsState.get s settings a).1 == Except.ok kind) = false := by
        rw [beq_eq_false_iff_ne]; exact hk
      have := ih (CredentialsState.get s settings a).2 settings
      simp only [hne, Bool.false_eq_true, if_false]
      omega

/-- The credentials among a list of callback results. -/
def okResults (l : List (Except GitError Cred)) : List Cred :=
  l.filterMap fun r => match r with | .ok c => some c | .error _ => none

theorem triedCount_le_three (s : CredentialsState) : s.triedCount ≤ 3 := by
  simp only [CredentialsState.triedCount]
  split <;> split <;> split <;> omega

theorem get_triedCount_step (s : CredentialsState) (settings : Settings)
    (allowed : CredentialType) (hd : allowed.default = false) :
    (∀ c, (s.get settings allowed).1 = .ok c →
        s.triedCount + 1 ≤ ((s.get settings allowed).2).triedCount)
      ∧ s.triedCount ≤ ((s.get settings allowed).2).triedCount := by
  simp only [CredentialsState.get, agent_step, helper_step, CredentialsState.triedCount]
  rcases settings.ssh with _ | k <;>
    rcases allowed with ⟨u, sk, up, d⟩ <;>
    rcases s with ⟨a, c, r, h⟩ <;>
    cases u <;> cases sk <;> cases up <;> cases d <;>
    cases a <;> cases c <;> cases h <;> simp_all

theorem runGet_ok_length (settings : Settings) :
    ∀ (allowed : List CredentialType) (s : CredentialsState),
      (∀ a ∈ allowed, a.default = false) →
      (okResults (runGet s settings allowed)).length + s.triedCount ≤ 3 := by
  intro allowed
  induction allowed with
  | nil =>
    intro s _
    simpa [runGet, okResults] using triedCount_le_three s
  | cons a rest ih =>
    intro s hd
    have hda : a.default = false := hd a (by simp)
    have hstep := get_triedCount_step s settings a hda
    have hih := ih (s.get settings a).2 (fun a ha => hd a (List.mem_cons_of_mem _ ha))
    rcases hr : (s.get settings a).1 with e | c
    · simp only [runGet, okResults, List.filterMap_cons, hr]
      simp only [okResults] at hih
      omega
    · simp only [runGet, okResults, List.filterMap_cons, hr, List.length_cons]
      have := hstep.1 c hr
      simp only [okResults] at hih
      omega

/-- C6 (amended).  Each of the SSH-key-from-config, SSH-key-from-agent,
and credential-helper kinds is returned at most once per fetch; the
default credential is not flag-guarded and may be returned on every
invocation that allows it.  Hence, when `DEFAULT` is never among the
allowed types, at most three invocations return a credential (after
which every invocation returns an error), and the deterministic search
order is config key, then agent, then helper. -/
theorem c6_each_guarded_kind_once (settings : Settings) (allowed : List CredentialType) :
    ((runGet CredentialsState.init settings allowed).count (.ok .ssh_key) ≤ 1)
      ∧ ((runGet CredentialsState.init settings allowed).count (.ok .ssh_key_from_agent) ≤ 1)
      ∧ ((runGet CredentialsState.init settings allowed).count (.ok .credential_helper) ≤ 1)
      ∧ ((∀ a ∈ allowed, a.default = false) →
          (okResults (runGet CredentialsState.init settings allowed)).length ≤ 3) := by
  refine ⟨?_, ?_, ?_, ?_⟩
  · exact runGet_count_le_one (fun s => s.tried_ssh_key_from_config) .ssh_key
      (fun s settings a h => (get_flags_monotone s settings a).1 h)
      (fun s settings a h => (get_ok_flags s settings a).1 h) allowed _ settings
  · exact runGet_count_le_one (fun s => s.tried_ssh_key_from_agent) .ssh_key_from_agent
      (fun s settings a h => (get_flags_monotone s settings a).2.1 h)
      (fun s settings a h => (get_ok_flags s settings a).2.1 h) allowed _ settings
  · exact runGet_count_le_one (fun s => s.tried_cred_helper) .credential_helper
      (fun s settings a h => (get_flags_monotone s settings a).2.2 h)
      (fun s settings a h => (get_ok_flags s settings a).2.2 h) allowed _ settings
  · intro hd
    have := runGet_ok_length settings allowed CredentialsState.init hd
    have hz : CredentialsState.init.triedCount = 0 := rfl
    omega

/-- Witness for C6 (amended) at a concrete fetch: four invocations that
never allow `DEFAULT` yield the agent key, an error, the helper, and an
error. -/
theorem c6_each_guarded_kind_once_witness :
    ((runGet CredentialsState.init Settings.default
        [⟨false, true, false, false⟩, ⟨false, true, false, false⟩,
          ⟨false, false, true, false⟩, ⟨false, false, true, false⟩]).count
        (.ok .ssh_key) ≤ 1)
      ∧ ((runGet CredentialsState.init Settings.default
          [⟨false, true, false, false⟩, ⟨false, true, false, false⟩,
            ⟨false, false, true, false⟩, ⟨false, false, true, false⟩]).count
          (.ok .ssh_key_from_agent) ≤ 1)
      ∧ ((runGet CredentialsState.init Settings.default
          [⟨false, true, false, false⟩, ⟨false, true, false, false⟩,
            ⟨false, false, true, false⟩, ⟨false, false, true, false⟩]).count
          (.ok .credential_helper) ≤ 1)
      ∧ (okResults (runGet CredentialsState.init Settings.default
          [⟨false, true, false, false⟩, ⟨false, true, false, false⟩,
            ⟨false, false, true, false⟩, ⟨false, false, true, false⟩])).length ≤ 3 :=
  ⟨(c6_each_guarded_kind_once Settings.default _).1,
    (c6_each_guarded_kind_once Settings.default _).2.1,
    (c6_each_guarded_kind_once Settings.default _).2.2.1,
    (c6_each_guarded_kind_once Settings.default
      [⟨false, true, false, false⟩, ⟨false, true, false, false⟩,
        ⟨false, false, true, false⟩, ⟨false, false, true, false⟩]).2.2.2 (by decide)⟩

/-! ### Fast-forward pull (`Repository::pull` in `src/git.rs`)

The pull is modelled as a function of the backend call results
(`PullEnv`) that returns the crate result together with the trace of
mutating backend calls it performed, in order.  A generic interpreter
applies such a trace to an abstract repository state; the frame claim
is settled against that interpreter. -/

/-- A commit id. -/
abbrev Oid := Nat

/-- `git2::FetchPrune`. -/
inductive FetchPrune where
  | Unspecified
  | Off
  | On
deriving DecidableEq, Repr

/-- The prune mode `Repository::pull` builds from the settings. -/
def prune_of (settings : Settings) : FetchPrune :=
  match settings.prune with
  | none => .Unspecified
  | some false => .Off
  | some true => .On

/-- The remote-side repository data a fetch rewrites: remote-tracking
refs, `FETCH_HEAD`, and the fetched tags. -/
structure RemoteSide where
  remote_refs : List (String × Oid)
  fetch_head : Option Oid
  tags : List String
deriving DecidableEq, Repr

/-- The observable repository state for the frame claim. -/
structure RepoState where
  remote : RemoteSide
  head : BStr
  local_branches : List (BStr × Oid)
  work_tree : List (String × String)
deriving DecidableEq, Repr

/-- A mutating backend call performed by `Repository::pull`. -/
inductive Effect where
  | fetch (prune : FetchPrune) (result : RemoteSide)
  | create_ref (name : BStr) (oid : Oid)
  | set_head (name : BStr)
  | set_target (name : BStr) (oid : Oid)
  | checkout_head (tree : List (String × String))
deriving DecidableEq, Repr

/-- Move the branch named `n` (if present) to `o`. -/
def setBranch (l : List (BStr × Oid)) (n : BStr) (o : Oid) : List (BStr × Oid) :=
  l.map fun p => if p.1 = n then (n, o) else p

/-- Interpret one backend call on the abstract repository state. -/
def applyEffect (st : RepoState) : Effect → RepoState
  | .fetch _ r => { st with remote := r }
  | .create_ref n o => { st with local_branches := st.local_branches ++ [(n, o)] }
  | .set_head n => { st with head := n }
  | .set_target n o => { st with local_branches := setBranch st.local_branches n o }
  | .checkout_head t => { st with work_tree := t }

/-- Interpret a trace of backend calls, in order. -/
def applyEffects (st : RepoState) (l : List Effect) : RepoState :=
  l.foldl applyEffect st

/-- `git2::MergeAnalysis` as the flags the code inspects. -/
structure MergeAnalysis where
  up_to_date : Bool
  unborn : Bool
  fast_forward : Bool
deriving DecidableEq, Repr

/-- The backend call results `Repository::pull` consumes, in program
order.  Each mutating call yields its effect only when it succeeds. -/
structure PullEnv where
  /-- `repo.remotes()`: the remote names, `none` for invalid utf-8. -/
  remotes : List (Option String)
  /-- `repo.find_remote(name)`. -/
  find_remote : String → Except GitError String
  /-- `repo.config()`. -/
  config : Except GitError Unit
  /-- `remote.fetch(..)`: on success, the new remote side. -/
  fetch : Except GitError RemoteSide
  /-- `remote.default_branch()`. -/
  remote_default_branch_raw : Except GitError BStr
  /-- `head_branch()?.upstream()?.into_reference().target()`. -/
  upstream_oid : Except GitError Oid
  /-- `annotated_commit_from_fetchhead(..)`: the annotated commit id. -/
  fetchhead_commit : Except GitError Oid
  /-- `merge_analysis(..)`. -/
  merge_analysis : Except GitError MergeAnalysis
  /-- `repo.reference(..)` in `create_unborn`. -/
  reference : Except GitError Unit
  /-- `repo.set_head(..)` in `checkout`. -/
  set_head : Except GitError Unit
  /-- `repo.checkout_head(force)`: on success, the new working tree. -/
  checkout : Except GitError (List (String × String))
  /-- `self.head_branch()` in `fast_forward`: the current branch name. -/
  head_branch : Except GitError BStr
  /-- `branch.get_mut().set_target(..)` in `fast_forward`. -/
  set_target : Except GitError Unit

/-- `Repository::default_remote` from `src/git.rs`: the settings
override, else the sole remote, else an error. -/
def default_remote (settings : Settings) (env : PullEnv) : Except Error String :=
  match settings.default_remote with
  | some name =>
    match env.find_remote name with
    | .ok r => .ok r
    | .error e => .error (.git e)
  | none =>
    match env.remotes with
    | [] => .error (.message "no remotes")
    | [some name] =>
      match env.find_remote name with
      | .ok r => .ok r
      | .error e => .error (.git e)
    | [none] => .error (.message "default remote name is invalid utf-8")
    | _ => .error (.message "no default remote")

/-- The remote used by `Repository::pull`: the one carried over from
the status phase, else `default_remote`. -/
def select_remote (settings : Settings) (remote : Option String) (env : PullEnv) :
    Except Error String :=
  match remote with
  | some r => .ok r
  | none => default_remote settings env

/-- `Repository::default_branch_for_remote` from `src/git.rs`: the
remote's default branch with any `refs/heads/` prefix stripped (the
model's byte strings are always valid utf-8, so the utf-8 error branch
is unreachable here). -/
def default_branch_for_remote (raw : Except GitError BStr) : Except Error String :=
  match raw with
  | .error e => .error (.git e)
  | .ok name =>
    let stripped := if REFS_HEADS_NAMESPACE.isPrefixOf name then
        name.drop REFS_HEADS_NAMESPACE.length
      else name
    .ok (String.mk stripped)

/-- The default branch `Repository::pull` uses: the one from the
status, else the remote's. -/
def resolve_default_branch (status : RepositoryStatus) (env : PullEnv) :
    Except Error String :=
  match status.default_branch with
  | some name => .ok name
  | none => default_branch_for_remote env.remote_default_branch_raw

/-- `Repository::create_unborn` from `src/git.rs`: create
`refs/heads/<head name>` at the fetched commit, set HEAD to it, and
force-checkout. -/
def create_unborn (status : RepositoryStatus) (oid : Oid) (env : PullEnv) :
    Except GitError Unit × List Effect :=
  let branch_name := REFS_HEADS_NAMESPACE ++ status.head.name
  match env.reference with
  | .error e => (.error e, [])
  | .ok _ =>
    match env.set_head with
    | .error e => (.error e, [.create_ref branch_name oid])
    | .ok _ =>
      match env.checkout with
      | .error e => (.error e, [.create_ref branch_name oid, .set_head branch_name])
      | .ok t => (.ok (), [.create_ref branch_name oid, .set_head branch_name,
          .checkout_head t])

/-- `Repository::fast_forward` from `src/git.rs`: move the current
branch ref to the fetched commit and force-checkout. -/
def fast_forward (oid : Oid) (env : PullEnv) : Except GitError Unit × List Effect :=
  match env.head_branch with
  | .error e => (.error e, [])
  | .ok branch_name =>
    match env.set_target with
    | .error e => (.error e, [])
    | .ok _ =>
      match env.checkout with
      | .error e => (.error e, [.set_target branch_name oid])
      | .ok t => (.ok (), [.set_target branch_name oid, .checkout_head t])

/-- `Repository::pull` from `src/git.rs`: remote selection, fetch,
the three post-fetch checks, FETCH_HEAD resolution, merge analysis and
dispatch.  Returns the crate result and the trace of mutating backend
calls. -/
def pull (settings : Settings) (status : RepositoryStatus) (remote : Option String)
    (env : PullEnv) : Except Error PullOutcome × List Effect :=
  match select_remote settings remote env with
  | .error e => (.error e, [])
  | .ok _ =>
    match env.config with
    | .error e => (.error (.git e), [])
    | .ok _ =>
      match env.fetch with
      | .error e => (.error (.git e), [])
      | .ok fetched =>
        let tr := [Effect.fetch (prune_of settings) fetched]
        if !status.upstream.exists_upstream then
          (.error (.message "no upstream branch"), tr)
        else if status.working_tree.is_dirty then
          (.error (.message "working tree has uncommitted changes"), tr)
        else
          match resolve_default_branch status env with
          | .error e => (.error e, tr)
          | .ok default_branch =>
            if !status.head.on_branch default_branch.toList then
              (.error (.message "not on default branch"), tr)
            else
              match env.upstream_oid with
              | .error e => (.error (.git e), tr)
              | .ok _ =>
                match env.fetchhead_commit with
                | .error e => (.error (.git e), tr)
                | .ok fetch_head =>
                  match env.merge_analysis with
                  | .error e => (.error (.git e), tr)
                  | .ok ma =>
                    if ma.up_to_date then
                      (.ok (.UpToDate default_branch), tr)
                    else if ma.unborn then
                      match create_unborn status fetch_head env with
                      | (.error e, tr') => (.error (.git e), tr ++ tr')
                      | (.ok _, tr') => (.ok (.CreatedUnborn default_branch), tr ++ tr')
                    else if ma.fast_forward then
                      match fast_forward fetch_head env with
                      | (.error e, tr') => (.error (.git e), tr ++ tr')
                      | (.ok _, tr') => (.ok (.FastForwarded default_branch), tr ++ tr')
                    else
                      (.error (.message "cannot fast-forward"), tr)

/-- C4. After the fetch, `pull` performs the three checks in order —
upstream exists, working tree clean, HEAD on the default branch — and
returns the error of the first that fails (`"no upstream branch"`,
`"working tree has uncommitted changes"`, `"not on default branch"`);
in each error case the trace stops at the fetch, so no later state of
the pull state machine is entered. -/
theorem c4_post_fetch_checks (settings : Settings) (status : RepositoryStatus)
    (remote : Option String) (env : PullEnv) (r : String) (fetched : RemoteSide)
    (hsel : select_remote settings remote env = .ok r)
    (hcfg : env.config = .ok ())
    (hfetch : env.fetch = .ok fetched) :
    (status.upstream.exists_upstream = false →
        pull settings status remote env
          = (.error (.message "no upstream branch"),
              [.fetch (prune_of settings) fetched]))
      ∧ (status.upstream.exists_upstream = true →
          status.working_tree.is_dirty = true →
          pull settings status remote env
            = (.error (.message "working tree has uncommitted changes"),
                [.fetch (prune_of settings) fetched]))
      ∧ (∀ b, status.upstream.exists_upstream = true →
          status.working_tree.is_dirty = false →
          resolve_default_branch status env = .ok b →
          status.head.on_branch b.toList = false →
          pull settings status remote env
            = (.error (.message "not on default branch"),
                [.fetch (prune_of settings) fetched])) := by
  refine ⟨?_, ?_, ?_⟩
  · intro hup
    simp [pull, hsel, hcfg, hfetch, hup]
  · intro hup hdirty
    simp [pull, hsel, hcfg, hfetch, hup, hdirty]
  · intro b hup hdirty hres hon
    have hon' : status.head.on_branch b.data = false := hon
    simp [pull, hsel, hcfg, hfetch, hup, hdirty, hres, hon']

/-- Witness for C4: a repository with no upstream configured fails the
first check right after the fetch. -/
theorem c4_post_fetch_checks_witness :
    pull Settings.default
        ⟨⟨"main".toList, .Branch⟩, .none, ⟨false, false⟩, some "main"⟩
        (some "origin")
        ⟨[some "origin"], fun n => .ok n, .ok (), .ok ⟨[("origin/main", 2)], some 2, []⟩,
          .ok "main".toList, .ok 2, .ok 2, .ok ⟨false, false, true⟩,
          .ok (), .ok (), .ok [], .ok "main".toList, .ok ()⟩
      = (.error (.message "no upstream branch"),
          [.fetch .Unspecified ⟨[("origin/main", 2)], some 2, []⟩]) := by
  have h := c4_post_fetch_checks Settings.default
    ⟨⟨"main".toList, .Branch⟩, .none, ⟨false, false⟩, some "main"⟩
    (some "origin")
    ⟨[some "origin"], fun n => .ok n, .ok (), .ok ⟨[("origin/main", 2)], some 2, []⟩,
      .ok "main".toList, .ok 2, .ok 2, .ok ⟨false, false, true⟩,
      .ok (), .ok (), .ok [], .ok "main".toList, .ok ()⟩
    "origin" ⟨[("origin/main", 2)], some 2, []⟩ rfl rfl rfl
  exact h.1 rfl

/-- C5. Once the merge analysis of the annotated FETCH_HEAD commit is
available (all checks passed), the outcome is determined by that result
alone: `UpToDate` when the analysis is up-to-date, `CreatedUnborn`
after creating `refs/heads/<name>` and checking it out when it is
unborn, `FastForwarded` after moving the branch ref and force-checkout
when it is fast-forward, and the error `"cannot fast-forward"` in every
other case.  The three outcomes are mutually exclusive (the analysis
flags are mutually exclusive, and `pull` returns exactly one of the
distinct constructors). -/
theorem c5_merge_analysis_dispatch (settings : Settings) (status : RepositoryStatus)
    (remote : Option String) (env : PullEnv) (r b : String) (fetched : RemoteSide)
    (uo fo : Oid) (ma : MergeAnalysis)
    (hsel : select_remote settings remote env = .ok r)
    (hcfg : env.config = .ok ())
    (hfetch : env.fetch = .ok fetched)
    (hup : status.upstream.exists_upstream = true)
    (hdirty : status.working_tree.is_dirty = false)
    (hb : resolve_default_branch status env = .ok b)
    (hon : status.head.on_branch b.toList = true)
    (hoid : env.upstream_oid = .ok uo)
    (hfh : env.fetchhead_commit = .ok fo)
    (hma : env.merge_analysis = .ok ma)
    (hexcl₁ : ¬(ma.up_to_date = true ∧ ma.unborn = true))
    (hexcl₂ : ¬(ma.up_to_date = true ∧ ma.fast_forward = true))
    (hexcl₃ : ¬(ma.unborn = true ∧ ma.fast_forward = true)) :
    (ma.up_to_date = true →
        (pull settings status remote env).1 = .ok (.UpToDate b))
      ∧ (∀ t, ma.unborn = true → env.reference = .ok () → env.set_head = .ok () →
          env.checkout = .ok t →
          (pull settings status remote env).1 = .ok (.CreatedUnborn b))
      ∧ (∀ bn t, ma.fast_forward = true → env.head_branch = .ok bn →
          env.set_target = .ok () → env.checkout = .ok t →
          (pull settings status remote env).1 = .ok (.FastForwarded b))
      ∧ (ma.up_to_date = false → ma.unborn = false → ma.fast_forward = false →
          (pull settings status remote env).1
            = .error (.message "cannot fast-forward")) := by
  have hon' : status.head.on_branch b.data = true := hon
  refine ⟨?_, ?_, ?_, ?_⟩
  · intro hu
    simp [pull, hsel, hcfg, hfetch, hup, hdirty, hb, hon', hoid, hfh, hma, hu]
  · intro t hu h1 h2 h3
    have hnu : ma.up_to_date = false := by
      cases h : ma.up_to_date
      · rfl
      · exact absurd ⟨h, hu⟩ hexcl₁
    simp [pull, create_unborn, hsel, hcfg, hfetch, hup, hdirty, hb, hon', hoid, hfh,
      hma, hu, hnu, h1, h2, h3]
  · intro bn t hu h1 h2 h3
    have hnu : ma.up_to_date = false := by
      cases h : ma.up_to_date
      · rfl
      · exact absurd ⟨h, hu⟩ hexcl₂
    have hnb : ma.unborn = false := by
      cases h : ma.unborn
      · rfl
      · exact absurd ⟨h, hu⟩ hexcl₃
    simp [pull, fast_forward, hsel, hcfg, hfetch, hup, hdirty, hb, hon', hoid, hfh,
      hma, hu, hnu, hnb, h1, h2, h3]
  · intro h1 h2 h3
    simp [pull, hsel, hcfg, hfetch, hup, hdirty, hb, hon', hoid, hfh, hma, h1, h2, h3]

/-- Witness for C5: a clean repository one commit behind its upstream
fast-forwards. -/
theorem c5_merge_analysis_dispatch_witness :
    (pull Settings.default
        ⟨⟨"main".toList, .Branch⟩, .upstream 0 1, ⟨false, false⟩, some "main"⟩
        (some "origin")
        ⟨[some "origin"], fun n => .ok n, .ok (), .ok ⟨[("origin/main", 2)], some 2, []⟩,
          .ok "main".toList, .ok 2, .ok 2, .ok ⟨false, false, true⟩,
          .ok (), .ok (), .ok [], .ok "main".toList, .ok ()⟩).1
      = .ok (.FastForwarded "main") := by
  have h := c5_merge_analysis_dispatch Settings.default
    ⟨⟨"main".toList, .Branch⟩, .upstream 0 1, ⟨false, false⟩, some "main"⟩
    (some "origin")
    ⟨[some "origin"], fun n => .ok n, .ok (), .ok ⟨[("origin/main", 2)], some 2, []⟩,
      .ok "main".toList, .ok 2, .ok 2, .ok ⟨false, false, true⟩,
      .ok (), .ok (), .ok [], .ok "main".toList, .ok ()⟩
    "origin" "main" ⟨[("origin/main", 2)], some 2, []⟩ 2 2 ⟨false, false, true⟩
    rfl rfl rfl rfl rfl rfl (by decide) rfl rfl rfl
    (by simp) (by simp) (by simp)
  exact h.2.2.1 "main".toList [] rfl rfl rfl rfl

/-- C10. The fetch happens before the three post-fetch checks: whenever
`pull` fails one of them (or default-branch resolution), the fetch's
side effects — the new remote-tracking refs, `FETCH_HEAD`, tags, and
pruning per the settings — have already happened and persist, and the
trace contains nothing but the fetch, so HEAD, the local branch refs
and the working tree are unchanged. -/
theorem c10_fetch_persists_on_check_error (settings : Settings)
    (status : RepositoryStatus) (remote : Option String) (env : PullEnv)
    (r : String) (fetched : RemoteSide) (st : RepoState)
    (hsel : select_remote settings remote env = .ok r)
    (hcfg : env.config = .ok ())
    (hfetch : env.fetch = .ok fetched)
    (hfail : status.upstream.exists_upstream = false
      ∨ status.working_tree.is_dirty = true
      ∨ (∃ b, resolve_default_branch status env = .ok b
          ∧ status.head.on_branch b.toList = false)
      ∨ (∃ e, resolve_default_branch status env = .error e)) :
    (∃ e, (pull settings status remote env).1 = .error e)
      ∧ (pull settings status remote env).2 = [.fetch (prune_of settings) fetched]
      ∧ (applyEffects st (pull settings status remote env).2).remote = fetched
      ∧ (applyEffects st (pull settings status remote env).2).head = st.head
      ∧ (applyEffects st (pull settings status remote env).2).local_branches
        = st.local_branches
      ∧ (applyEffects st (pull settings status remote env).2).work_tree
        = st.work_tree := by
  have hpull : ∃ e, pull settings status remote env
      = (.error e, [.fetch (prune_of settings) fetched]) := by
    cases hex : status.upstream.exists_upstream with
    | false =>
      exact ⟨.message "no upstream branch", by simp [pull, hsel, hcfg, hfetch, hex]⟩
    | true =>
      cases hd : status.working_tree.is_dirty with
      | true =>
        exact ⟨.message "working tree has uncommitted changes",
          by simp [pull, hsel, hcfg, hfetch, hex, hd]⟩
      | false =>
        rcases hres : resolve_default_branch status env with e | b
        · exact ⟨e, by simp [pull, hsel, hcfg, hfetch, hex, hd, hres]⟩
        · have hon : status.head.on_branch b.data = false := by
            rcases hfail with h | h | ⟨b', hb', hon'⟩ | ⟨e, he⟩
            · rw [hex] at h; cases h
            · rw [hd] at h; cases h
            · rw [hres] at hb'
              cases hb'
              exact hon'
            · rw [hres] at he; cases he
          exact ⟨.message "not on default branch",
            by simp [pull, hsel, hcfg, hfetch, hex, hd, hres, hon]⟩
  obtain ⟨e, hp⟩ := hpull
  rw [hp]
  exact ⟨⟨e, rfl⟩, rfl, rfl, rfl, rfl, rfl⟩

/-- Witness for C10: a dirty working tree fails the second check, yet
the interpreted trace shows the fetched remote state persisting while
HEAD, branches and the working tree are untouched. -/
theorem c10_fetch_persists_on_check_error_witness :
    (∃ e, (pull Settings.default
        ⟨⟨"main".toList, .Branch⟩, .upstream 0 1, ⟨true, false⟩, some "main"⟩
        (some "origin")
        ⟨[some "origin"], fun n => .ok n, .ok (), .ok ⟨[("origin/main", 2)], some 2, []⟩,
          .ok "main".toList, .ok 2, .ok 2, .ok ⟨false, false, true⟩,
          .ok (), .ok (), .ok [], .ok "main".toList, .ok ()⟩).1 = .error e)
      ∧ (pull Settings.default
          ⟨⟨"main".toList, .Branch⟩, .upstream 0 1, ⟨true, false⟩, some "main"⟩
          (some "origin")
          ⟨[some "origin"], fun n => .ok n, .ok (), .ok ⟨[("origin/main", 2)], some 2, []⟩,
            .ok "main".toList, .ok 2, .ok 2, .ok ⟨false, false, true⟩,
            .ok (), .ok (), .ok [], .ok "main".toList, .ok ()⟩).2
        = [.fetch .Unspecified ⟨[("origin/main", 2)], some 2, []⟩]
      ∧ (applyEffects ⟨⟨[("origin/main", 1)], none, []⟩, "main".toList, [("main".toList, 1)],
          [("file.txt", "changed")]⟩
          (pull Settings.default
            ⟨⟨"main".toList, .Branch⟩, .upstream 0 1, ⟨true, false⟩, some "main"⟩
            (some "origin")
            ⟨[some "origin"], fun n => .ok n, .ok (), .ok ⟨[("origin/main", 2)], some 2, []⟩,
              .ok "main".toList, .ok 2, .ok 2, .ok ⟨false, false, true⟩,
              .ok (), .ok (), .ok [], .ok "main".toList, .ok ()⟩).2).remote
        = ⟨[("origin/main", 2)], some 2, []⟩
      ∧ (applyEffects ⟨⟨[("origin/main", 1)], none, []⟩, "main".toList, [("main".toList, 1)],
          [("file.txt", "changed")]⟩
          (pull Settings.default
            ⟨⟨"main".toList, .Branch⟩, .upstream 0 1, ⟨true, false⟩, some "main"⟩
            (some "origin")
            ⟨[some "origin"], fun n => .ok n, .ok (), .ok ⟨[("origin/main", 2)], some 2, []⟩,
              .ok "main".toList, .ok 2, .ok 2, .ok ⟨false, false, true⟩,
              .ok (), .ok (), .ok [], .ok "main".toList, .ok ()⟩).2).head
        = "main".toList
      ∧ (applyEffects ⟨⟨[("origin/main", 1)], none, []⟩, "main".toList, [("main".toList, 1)],
          [("file.txt", "changed")]⟩
          (pull Settings.default
            ⟨⟨"main".toList, .Branch⟩, .upstream 0 1, ⟨true, false⟩, some "main"⟩
            (some "origin")
            ⟨[some "origin"], fun n => .ok n, .ok (), .ok ⟨[("origin/main", 2)], some 2, []⟩,
              .ok "main".toList, .ok 2, .ok 2, .ok ⟨false, false, true⟩,
              .ok (), .ok (), .ok [], .ok "main".toList, .ok ()⟩).2).local_branches
        = [("main".toList, 1)]
      ∧ (applyEffects ⟨⟨[("origin/main", 1)], none, []⟩, "main".toList, [("main".toList, 1)],
          [("file.txt", "changed")]⟩
          (pull Settings.default
            ⟨⟨"main".toList, .Branch⟩, .upstream 0 1, ⟨true, false⟩, some "main"⟩
            (some "origin")
            ⟨[some "origin"], fun n => .ok n, .ok (), .ok ⟨[("origin/main", 2)], some 2, []⟩,
              .ok "main".toList, .ok 2, .ok 2, .ok ⟨false, false, true⟩,
              .ok (), .ok (), .ok [], .ok "main".toList, .ok ()⟩).2).work_tree
        = [("file.txt", "changed")] := by
  have h := c10_fetch_persists_on_check_error Settings.default
    ⟨⟨"main".toList, .Branch⟩, .upstream 0 1, ⟨true, false⟩, some "main"⟩
    (some "origin")
    ⟨[some "origin"], fun n => .ok n, .ok (), .ok ⟨[("origin/main", 2)], some 2, []⟩,
      .ok "main".toList, .ok 2, .ok 2, .ok ⟨false, false, true⟩,
      .ok (), .ok (), .ok [], .ok "main".toList, .ok ()⟩
    "origin" ⟨[("origin/main", 2)], some 2, []⟩
    ⟨⟨[("origin/main", 1)], none, []⟩, "main".toList, [("main".toList, 1)],
      [("file.txt", "changed")]⟩
    rfl rfl rfl (Or.inr (Or.inl rfl))
  exact ⟨h.1, h.2.1, h.2.2.1, h.2.2.2.1, h.2.2.2.2.1, h.2.2.2.2.2⟩

/-! ## Walker (`src/walk.rs`)

The filesystem is modelled as a tree.  Each directory node records the
result of `git::Repository::try_open` on it, whether `fs::read_dir`
succeeds on it, and its listing in the order the filesystem returns.
Each listing entry is either an entry that failed to read, an entry
whose `file_type()` fails, a non-directory, or a directory (whose
subtree is the paired tree; for the other kinds the paired tree is
ignored, as the walker never looks at it). -/

/-- The result of `git::Repository::try_open` on a directory. -/
inductive OpenResult where
  | repo
  | notRepo
  | openErr
deriving DecidableEq, Repr

/-- One `read_dir` entry as the walker observes it. -/
inductive ChildKind where
  | readErr
  | typeErr (name : String)
  | file (name : String)
  | dir (name : String)
deriving DecidableEq, Repr

/-- A directory tree. -/
inductive FsTree where
  | mk (op : OpenResult) (readOk : Bool) (children : List (ChildKind × FsTree))

def FsTree.op : FsTree → OpenResult
  | .mk o _ _ => o

def FsTree.readOk : FsTree → Bool
  | .mk _ r _ => r

def FsTree.children : FsTree → List (ChildKind × FsTree)
  | .mk _ _ c => c

/-- `Entry` from `src/walk.rs`: in the model the root is implicit, so
`path` and `relative_path` coincide and the opaque repository handle is
dropped. -/
structure Entry where
  path : RPath
  settings : Settings
deriving DecidableEq, Repr

/-- Which failure an `on_error` callback reports. -/
inductive ErrReason where
  | readDir
  | readEntry
  | metadata
  | openRepo
deriving DecidableEq, Repr

/-- A walker event: the three callbacks, plus a `readDir` record for
every `fs::read_dir` call (used to state the pruning invariant). -/
inductive Event where
  | repo (e : Entry)
  | dir (path : RPath)
  | err (path : RPath) (reason : ErrReason)
  | readDir (path : RPath)
deriving DecidableEq, Repr

/-- The accumulator of the scanning pass of `walk_inner`: error events
emitted so far, buffered repositories, buffered subdirectories. -/
structure ScanResult where
  events : List Event
  repos : List Entry
  subdirs : List (RPath × FsTree)

/-- One iteration of the scanning loop of `walk_inner`: report
unreadable entries; compute the settings and skip ignored entries;
report metadata failures; buffer repositories and subdirectories;
report open failures. -/
def scanStep (cfg : Config) (path : RPath) (acc : ScanResult) :
    ChildKind × FsTree → ScanResult
  | (.readErr, _) => { acc with events := acc.events ++ [.err path .readEntry] }
  | (.typeErr name, _) =>
    let sub_path := path ++ [name]
    if (cfg.settings sub_path).ignore = some true then acc
    else { acc with events := acc.events ++ [.err sub_path .metadata] }
  | (.file _, _) => acc
  | (.dir name, sub) =>
    let sub_path := path ++ [name]
    let settings := cfg.settings sub_path
    if settings.ignore = some true then acc
    else
      match sub.op with
      | .repo => { acc with repos := acc.repos ++ [⟨sub_path, settings⟩] }
      | .notRepo => { acc with subdirs := acc.subdirs ++ [(sub_path, sub)] }
      | .openErr => { acc with events := acc.events ++ [.err sub_path .openRepo] }

/-- The scanning pass of `walk_inner` over a directory listing. -/
def scanDir (cfg : Config) (path : RPath) (children : List (ChildKind × FsTree)) :
    ScanResult :=
  children.foldl (scanStep cfg path) ⟨[], [], []⟩

mutual

/-- `walk_inner` from `src/walk.rs`: read the directory (reporting a
failure and stopping if that fails), scan the listing, then emit the
directory header and the buffered repositories if any repository was
found, then recurse into the buffered subdirectories depth-first.
`walk_children_eq_subdirs` below shows the recursion part equals the
source's loop over the buffered subdirectory list. -/
def walk_inner (cfg : Config) (path : RPath) : FsTree → List Event
  | .mk _ readOk children =>
    if readOk then
      let s := scanDir cfg path children
      .readDir path :: s.events
        ++ (if s.repos.isEmpty then [] else .dir path :: s.repos.map Event.repo)
        ++ walk_children cfg path children
    else
      [.readDir path, .err path .readDir]

/-- The depth-first recursion of `walk_inner` into the non-repository,
non-ignored directory children, in listing order. -/
def walk_children (cfg : Config) (path : RPath) :
    List (ChildKind × FsTree) → List Event
  | [] => []
  | (k, sub) :: rest =>
    (match k with
      | .dir name =>
        if (cfg.settings (path ++ [name])).ignore = some true then []
        else
          match sub.op with
          | .notRepo => walk_inner cfg (path ++ [name]) sub
          | _ => []
      | _ => []) ++ walk_children cfg path rest

end

/-- `walk` from `src/walk.rs`: if the start path opens as a repository,
emit a single entry for it (with no ignore check); if it is not a
repository, walk inside it; if opening fails, report the error. -/
def walk (cfg : Config) (path : RPath) (t : FsTree) : List Event :=
  match t.op with
  | .repo => [.repo ⟨path, cfg.settings path⟩]
  | .notRepo => walk_inner cfg path t
  | .openErr => [.err path .openRepo]

/-! Specification-side decompositions of the scanning pass. -/

/-- The error events of one listing entry, if any. -/
def childEvent (cfg : Config) (path : RPath) : ChildKind × FsTree → Option Event
  | (.readErr, _) => some (.err path .readEntry)
  | (.typeErr name, _) =>
    if (cfg.settings (path ++ [name])).ignore = some true then none
    else some (.err (path ++ [name]) .metadata)
  | (.file _, _) => none
  | (.dir name, sub) =>
    if (cfg.settings (path ++ [name])).ignore = some true then none
    else
      match sub.op with
      | .openErr => some (.err (path ++ [name]) .openRepo)
      | _ => none

/-- The error events of the scanning pass, in listing order. -/
def scanErrsOf (cfg : Config) (path : RPath)
    (children : List (ChildKind × FsTree)) : List Event :=
  children.filterMap (childEvent cfg path)

/-- The repositories directly under a directory, in listing order:
directory children that are not ignored and open as repositories. -/
def reposOf (cfg : Config) (path : RPath)
    (children : List (ChildKind × FsTree)) : List Entry :=
  children.filterMap fun c =>
    match c with
    | (.dir name, sub) =>
      let sub_path := path ++ [name]
      let settings := cfg.settings sub_path
      if settings.ignore = some true then none
      else
        match sub.op with
        | .repo => some ⟨sub_path, settings⟩
        | _ => none
    | _ => none

/-- The subdirectories to recurse into, in listing order: directory
children that are not ignored and are not repositories. -/
def subdirsOf (cfg : Config) (path : RPath)
    (children : List (ChildKind × FsTree)) : List (RPath × FsTree) :=
  children.filterMap fun c =>
    match c with
    | (.dir name, sub) =>
      if (cfg.settings (path ++ [name])).ignore = some true then none
      else
        match sub.op with
        | .notRepo => some (path ++ [name], sub)
        | _ => none
    | _ => none

theorem scanDir_foldl (cfg : Config) (path : RPath) :
    ∀ (children : List (ChildKind × FsTree)) (acc : ScanResult),
      children.foldl (scanStep cfg path) acc
        = ⟨acc.events ++ scanErrsOf cfg path children,
            acc.repos ++ reposOf cfg path children,
            acc.subdirs ++ subdirsOf cfg path children⟩ := by
  intro children
  induction children with
  | nil => intro acc; simp [scanErrsOf, reposOf, subdirsOf]
  | cons c rest ih =>
    intro acc
    rw [List.foldl_cons, ih]
    rcases c with ⟨k, sub⟩
    cases k with
    | readErr =>
      simp [scanStep, scanErrsOf, reposOf, subdirsOf, childEvent, List.filterMap_cons]
    | typeErr name =>
      by_cases hig : (cfg.settings (path ++ [name])).ignore = some true <;>
        simp [scanStep, scanErrsOf, reposOf, subdirsOf, childEvent,
          List.filterMap_cons, hig]
    | file name =>
      simp [scanStep, scanErrsOf, reposOf, subdirsOf, childEvent, List.filterMap_cons]
    | dir name =>
      by_cases hig : (cfg.settings (path ++ [name])).ignore = some true
      · simp [scanStep, scanErrsOf, reposOf, subdirsOf, childEvent,
          List.filterMap_cons, hig]
      · cases hop : sub.op <;>
          simp [scanStep, scanErrsOf, reposOf, subdirsOf, childEvent,
            List.filterMap_cons, hig, hop]

theorem scanDir_eq (cfg : Config) (path : RPath)
    (children : List (ChildKind × FsTree)) :
    scanDir cfg path children
      = ⟨scanErrsOf cfg path children, reposOf cfg path children,
          subdirsOf cfg path children⟩ := by
  simpa [scanDir] using scanDir_foldl cfg path children ⟨[], [], []⟩

theorem walk_children_eq_subdirs (cfg : Config) (path : RPath) :
    ∀ children : List (ChildKind × FsTree),
      walk_children cfg path children
        = ((subdirsOf cfg path children).map fun x => walk_inner cfg x.1 x.2).flatten := by
  intro children
  induction children with
  | nil => simp [walk_children, subdirsOf]
  | cons c rest ih =>
    rcases c with ⟨k, sub⟩
    cases k with
    | readErr => simpa [walk_children, subdirsOf, List.filterMap_cons] using ih
    | typeErr name => simpa [walk_children, subdirsOf, List.filterMap_cons] using ih
    | file name => simpa [walk_children, subdirsOf, List.filterMap_cons] using ih
    | dir name =>
      by_cases hig : (cfg.settings (path ++ [name])).ignore = some true
      · simpa [walk_children, subdirsOf, List.filterMap_cons, hig] using ih
      · cases hop : sub.op <;>
          simp [walk_children, subdirsOf, List.filterMap_cons, hig, hop, ih]

/-- C8. For every directory the walker visits (fixed, readable
listing), the event sequence is the deterministic function of the
listing given by: the per-entry error reports in listing order, then —
if at least one repository lies directly under the directory — one
`on_dir` call followed by one `on_repo` call per such repository in
listing order, and only after these the depth-first recursion into the
non-repository, non-ignored subdirectories in listing order. -/
theorem c8_per_directory_order (cfg : Config) (path : RPath) (op : OpenResult)
    (children : List (ChildKind × FsTree)) :
    walk_inner cfg path (.mk op true children)
      = .readDir path :: (scanErrsOf cfg path children
          ++ (if reposOf cfg path children = [] then []
              else .dir path :: (reposOf cfg path children).map Event.repo)
          ++ ((subdirsOf cfg path children).map fun x => walk_inner cfg x.1 x.2).flatten) := by
  rw [walk_inner, if_pos rfl, scanDir_eq, walk_children_eq_subdirs]
  simp [List.isEmpty_iff]

/-! Specification-side directory sets for the emission claim. -/

mutual

/-- Every directory node under (and including) a node, with its path. -/
def allDirs (path : RPath) : FsTree → List (RPath × FsTree)
  | .mk op ro children => (path, .mk op ro children) :: allDirsChildren path children

def allDirsChildren (path : RPath) :
    List (ChildKind × FsTree) → List (RPath × FsTree)
  | [] => []
  | (k, sub) :: rest =>
    (match k with
      | .dir name => allDirs (path ++ [name]) sub
      | _ => []) ++ allDirsChildren path rest

end

/-- The set of emitted repositories as the claim states it: every
directory under the start (including the start) that opens as a
repository and whose effective settings do not have `ignore == true`. -/
def claimedRepos (cfg : Config) (start : RPath) (t : FsTree) : List RPath :=
  (allDirs start t).filterMap fun x =>
    if x.2.op = .repo ∧ (cfg.settings x.1).ignore ≠ some true then some x.1
    else none

/-- The paths of the entries the walker passes to `on_repo`, in
emission order. -/
def walkRepoPaths (cfg : Config) (start : RPath) (t : FsTree) : List RPath :=
  (walk cfg start t).filterMap fun e =>
    match e with
    | .repo en => some en.path
    | _ => none

/-- C3 counterexample.  A start path that is itself a repository is
emitted even when its effective settings have `ignore == true`: `walk`
checks `try_open` on the start path before any ignore check
(`src/walk.rs:49-51`), so the emitted multiset is `{start}` while the
claimed set is empty. -/
theorem c3_ignored_start_counterexample :
    walkRepoPaths
        ⟨Settings.default,
          ⟨[(fun p => p == ["r"], { Settings.default with ignore := some true })]⟩⟩
        ["r"] (.mk .repo true [])
      = [["r"]]
      ∧ claimedRepos
        ⟨Settings.default,
          ⟨[(fun p => p == ["r"], { Settings.default with ignore := some true })]⟩⟩
        ["r"] (.mk .repo true [])
      = [] := by
  constructor
  · rfl
  · simp [claimedRepos, allDirs, allDirsChildren, Config.settings, SettingsMatcher.get,
      Settings.merge, Settings.default, FsTree.op]

mutual

/-- The amended repository set under a readable non-repository
directory, as local conditions on the access path: a directory child
that is not ignored is collected when it opens as a repository, and
descended into when it is not a repository; unreadable directories and
children behind ignored or repository directories contribute
nothing. -/
def specInner (cfg : Config) (path : RPath) : FsTree → List RPath
  | .mk _ readOk children =>
    if readOk then specInnerChildren cfg path children else []

def specInnerChildren (cfg : Config) (path : RPath) :
    List (ChildKind × FsTree) → List RPath
  | [] => []
  | (k, sub) :: rest =>
    (match k with
      | .dir name =>
        if (cfg.settings (path ++ [name])).ignore = some true then []
        else
          match sub.op with
          | .repo => [path ++ [name]]
          | .notRepo => specInner cfg (path ++ [name]) sub
          | .openErr => []
      | _ => []) ++ specInnerChildren cfg path rest

end

/-- The amended emitted set for a whole walk: the start itself when it
opens as a repository (its ignore setting is never consulted), else the
recursively collected set. -/
def specRepos (cfg : Config) (start : RPath) (t : FsTree) : List RPath :=
  match t.op with
  | .repo => [start]
  | .notRepo => specInner cfg start t
  | .openErr => []

/-- The paths of the `on_repo` events of a trace, in order. -/
def repoPathsOf (l : List Event) : List RPath :=
  l.filterMap fun e =>
    match e with
    | .repo en => some en.path
    | _ => none

theorem subdirsOf_mem (cfg : Config) (path : RPath)
    (children : List (ChildKind × FsTree)) (x : RPath × FsTree)
    (hx : x ∈ subdirsOf cfg path children) :
    ∃ name sub, (ChildKind.dir name, sub) ∈ children
      ∧ (cfg.settings (path ++ [name])).ignore ≠ some true
      ∧ sub.op = .notRepo ∧ x = (path ++ [name], sub) := by
  simp only [subdirsOf, List.mem_filterMap] at hx
  obtain ⟨c, hc, hfc⟩ := hx
  rcases c with ⟨k, sub⟩
  cases k with
  | readErr => simp at hfc
  | typeErr name => simp at hfc
  | file name => simp at hfc
  | dir name =>
    dsimp only at hfc
    by_cases hig : (cfg.settings (path ++ [name])).ignore = some true
    · rw [if_pos hig] at hfc; simp at hfc
    · rw [if_neg hig] at hfc
      cases hop : sub.op with
      | repo => rw [hop] at hfc; simp at hfc
      | notRepo =>
        rw [hop] at hfc
        simp only [Option.some.injEq] at hfc
        exact ⟨name, sub, hc, hig, hop, hfc.symm⟩
      | openErr => rw [hop] at hfc; simp at hfc

theorem sizeOf_child_lt (k : ChildKind) (sub : FsTree)
    (children : List (ChildKind × FsTree)) (h : (k, sub) ∈ children) :
    sizeOf sub < sizeOf children := by
  have hm := List.sizeOf_lt_of_mem h
  have hp : sizeOf (k, sub) = 1 + sizeOf k + sizeOf sub := rfl
  omega

theorem repoPathsOf_scanErrs (cfg : Config) (path : RPath)
    (children : List (ChildKind × FsTree)) :
    repoPathsOf (scanErrsOf cfg path children) = [] := by
  rw [repoPathsOf, List.filterMap_eq_nil_iff]
  intro e he
  simp only [scanErrsOf, List.mem_filterMap] at he
  obtain ⟨c, hc, hfc⟩ := he
  rcases c with ⟨k, sub⟩
  cases k with
  | readErr =>
    dsimp only [childEvent] at hfc
    simp only [Option.some.injEq] at hfc
    simp [← hfc]
  | typeErr name =>
    dsimp only [childEvent] at hfc
    split at hfc
    · simp at hfc
    · simp only [Option.some.injEq] at hfc
      simp [← hfc]
  | file name =>
    dsimp only [childEvent] at hfc
    simp at hfc
  | dir name =>
    dsimp only [childEvent] at hfc
    split at hfc
    · simp at hfc
    · cases hop : sub.op with
      | repo => rw [hop] at hfc; simp at hfc
      | notRepo => rw [hop] at hfc; simp at hfc
      | openErr =>
        rw [hop] at hfc
        simp only [Option.some.injEq] at hfc
        simp [← hfc]

theorem repoPathsOf_header (cfg : Config) (path : RPath)
    (children : List (ChildKind × FsTree)) :
    repoPathsOf (if reposOf cfg path children = [] then []
        else .dir path :: (reposOf cfg path children).map Event.repo)
      = (reposOf cfg path children).map fun en => en.path := by
  split
  · simp_all [repoPathsOf]
  · simp only [repoPathsOf, List.filterMap_cons, List.filterMap_map]
    rw [show ((fun e => match e with
        | Event.repo en => some en.path
        | _ => none) ∘ Event.repo) = fun en => some en.path from rfl]
    rw [show (fun en : Entry => some en.path) = some ∘ (fun en => en.path) from rfl,
      List.filterMap_eq_map]

theorem specChildren_perm (cfg : Config) (path : RPath)
    (children : List (ChildKind × FsTree))
    (IH : ∀ name sub, (ChildKind.dir name, sub) ∈ children → sub.op = .notRepo →
      (repoPathsOf (walk_inner cfg (path ++ [name]) sub)).Perm
        (specInner cfg (path ++ [name]) sub)) :
    ((reposOf cfg path children).map (fun en => en.path)
        ++ ((subdirsOf cfg path children).map
            fun x => repoPathsOf (walk_inner cfg x.1 x.2)).flatten).Perm
      (specInnerChildren cfg path children) := by
  induction children with
  | nil => simp [reposOf, subdirsOf, specInnerChildren]
  | cons c rest ihr =>
    have IHrest : ∀ name sub, (ChildKind.dir name, sub) ∈ rest → sub.op = .notRepo →
        (repoPathsOf (walk_inner cfg (path ++ [name]) sub)).Perm
          (specInner cfg (path ++ [name]) sub) :=
      fun name sub h => IH name sub (List.mem_cons_of_mem _ h)
    have ih := ihr IHrest
    rcases c with ⟨k, sub⟩
    cases k with
    | readErr =>
      simpa [reposOf, subdirsOf, specInnerChildren, List.filterMap_cons] using ih
    | typeErr name =>
      simpa [reposOf, subdirsOf, specInnerChildren, List.filterMap_cons] using ih
    | file name =>
      simpa [reposOf, subdirsOf, specInnerChildren, List.filterMap_cons] using ih
    | dir name =>
      by_cases hig : (cfg.settings (path ++ [name])).ignore = some true
      · simpa [reposOf, subdirsOf, specInnerChildren, List.filterMap_cons, hig] using ih
      · cases hop : sub.op with
        | repo =>
          simp only [reposOf, subdirsOf, specInnerChildren, List.filterMap_cons, hig,
            if_neg hig, hop, List.map_cons]
          simpa [reposOf, subdirsOf, specInnerChildren, hig, hop] using ih.cons (path ++ [name])
        | openErr =>
          simpa [reposOf, subdirsOf, specInnerChildren, List.filterMap_cons, hig, hop]
            using ih
        | notRepo =>
          have hB := IH name sub (by simp) hop
          simp only [reposOf, subdirsOf, specInnerChildren, List.filterMap_cons, if_neg hig,
            hop, List.map_cons, List.flatten_cons]
          refine List.Perm.trans ?_ (List.Perm.append hB ih)
          rw [← List.append_assoc, ← List.append_assoc]
          exact List.Perm.append_right _ List.perm_append_comm

theorem repoPathsOf_cons_readDir (p : RPath) (l : List Event) :
    repoPathsOf (.readDir p :: l) = repoPathsOf l := by
  simp [repoPathsOf, List.filterMap_cons]

theorem repoPathsOf_append (l₁ l₂ : List Event) :
    repoPathsOf (l₁ ++ l₂) = repoPathsOf l₁ ++ repoPathsOf l₂ := by
  simp [repoPathsOf, List.filterMap_append]

theorem repoPathsOf_flatten (L : List (List Event)) :
    repoPathsOf L.flatten = (L.map repoPathsOf).flatten := by
  induction L with
  | nil => rfl
  | cons a L ih =>
    rw [List.flatten_cons, repoPathsOf_append, ih, List.map_cons, List.flatten_cons]

theorem walkInner_repoPaths_perm (cfg : Config) :
    ∀ (n : Nat) (t : FsTree) (path : RPath), sizeOf t ≤ n →
      (repoPathsOf (walk_inner cfg path t)).Perm (specInner cfg path t) := by
  intro n
  induction n with
  | zero =>
    intro t path ht
    rcases t with ⟨op, ro, children⟩
    simp [FsTree.mk.sizeOf_spec] at ht
  | succ n ihn =>
    intro t path ht
    rcases t with ⟨op, ro, children⟩
    cases ro with
    | false =>
      simp [walk_inner, specInner, repoPathsOf]
    | true =>
      have hrhs : specInner cfg path (.mk op true children)
          = specInnerChildren cfg path children := by
        simp [specInner]
      rw [c8_per_directory_order, hrhs, repoPathsOf_cons_readDir,
        repoPathsOf_append, repoPathsOf_append, repoPathsOf_flatten,
        repoPathsOf_scanErrs, repoPathsOf_header, List.map_map]
      simp only [List.nil_append, Function.comp]
      exact specChildren_perm cfg path children fun name sub hmem hop => by
        have hsz : sizeOf sub ≤ n := by
          have h1 := sizeOf_child_lt _ _ _ hmem
          have h2 : sizeOf (FsTree.mk op true children)
              = 1 + sizeOf op + sizeOf true + sizeOf children := by
            simp [FsTree.mk.sizeOf_spec]
          omega
        exact ihn sub (path ++ [name]) hsz

/-! Well-formed listings (distinct directory names per directory, as a
real filesystem guarantees) and the pruning invariant. -/

/-- The names of the directory children of a listing. -/
def dirNames (children : List (ChildKind × FsTree)) : List String :=
  children.filterMap fun c =>
    match c.1 with
    | .dir n => some n
    | _ => none

/-- No name occurs twice. -/
def namesNodup : List String → Bool
  | [] => true
  | n :: rest => !(rest.contains n) && namesNodup rest

mutual

/-- Directory names are distinct in every listing of the tree. -/
def wellFormed : FsTree → Bool
  | .mk _ _ children => namesNodup (dirNames children) && wellFormedChildren children

def wellFormedChildren : List (ChildKind × FsTree) → Bool
  | [] => true
  | (k, sub) :: rest =>
    (match k with
      | .dir _ => wellFormed sub
      | _ => true) && wellFormedChildren rest

end

theorem mem_allDirsChildren (path : RPath) (children : List (ChildKind × FsTree))
    (x : RPath × FsTree) :
    x ∈ allDirsChildren path children
      ↔ ∃ name sub, (ChildKind.dir name, sub) ∈ children
          ∧ x ∈ allDirs (path ++ [name]) sub := by
  induction children with
  | nil => simp [allDirsChildren]
  | cons c rest ih =>
    rcases c with ⟨k, sub'⟩
    cases k with
    | readErr =>
      simp only [allDirsChildren, List.nil_append, ih]
      constructor
      · rintro ⟨name, sub, hmem, hx⟩
        exact ⟨name, sub, List.mem_cons_of_mem _ hmem, hx⟩
      · rintro ⟨name, sub, hmem, hx⟩
        rcases List.mem_cons.mp hmem with heq | hmem
        · cases heq
        · exact ⟨name, sub, hmem, hx⟩
    | typeErr nm =>
      simp only [allDirsChildren, List.nil_append, ih]
      constructor
      · rintro ⟨name, sub, hmem, hx⟩
        exact ⟨name, sub, List.mem_cons_of_mem _ hmem, hx⟩
      · rintro ⟨name, sub, hmem, hx⟩
        rcases List.mem_cons.mp hmem with heq | hmem
        · cases heq
        · exact ⟨name, sub, hmem, hx⟩
    | file nm =>
      simp only [allDirsChildren, List.nil_append, ih]
      constructor
      · rintro ⟨name, sub, hmem, hx⟩
        exact ⟨name, sub, List.mem_cons_of_mem _ hmem, hx⟩
      · rintro ⟨name, sub, hmem, hx⟩
        rcases List.mem_cons.mp hmem with heq | hmem
        · cases heq
        · exact ⟨name, sub, hmem, hx⟩
    | dir nm =>
      simp only [allDirsChildren, List.mem_append, ih]
      constructor
      · rintro (hx | ⟨name, sub, hmem, hx⟩)
        · exact ⟨nm, sub', List.mem_cons_self _ _, hx⟩
        · exact ⟨name, sub, List.mem_cons_of_mem _ hmem, hx⟩
      · rintro ⟨name, sub, hmem, hx⟩
        rcases List.mem_cons.mp hmem with heq | hmem
        · injection heq with h1 h2
          injection h1 with h3
          subst h3; subst h2
          exact Or.inl hx
        · exact Or.inr ⟨name, sub, hmem, hx⟩

theorem mem_allDirs_head (path : RPath) (t : FsTree) (x : RPath × FsTree)
    (hx : x ∈ allDirs path t) :
    x = (path, t) ∨ x ∈ allDirsChildren path t.children := by
  rcases t with ⟨op, ro, children⟩
  rw [allDirs] at hx
  rcases List.mem_cons.mp hx with heq | hmem
  · exact Or.inl heq
  · exact Or.inr hmem

theorem allDirs_prefix (n : Nat) :
    ∀ (t : FsTree), sizeOf t ≤ n → ∀ (path : RPath) (x : RPath × FsTree),
      x ∈ allDirs path t → path <+: x.1 := by
  induction n with
  | zero =>
    intro t ht
    rcases t with ⟨op, ro, children⟩
    simp [FsTree.mk.sizeOf_spec] at ht
  | succ n ihn =>
    intro t ht path x hx
    rcases t with ⟨op, ro, children⟩
    rcases mem_allDirs_head path _ x hx with heq | hmem
    · subst heq
      exact List.prefix_rfl
    · simp only [FsTree.children] at hmem
      obtain ⟨name, sub, hcm, hx'⟩ := (mem_allDirsChildren path _ x).mp hmem
      have hsz : sizeOf sub ≤ n := by
        have h1 := sizeOf_child_lt _ _ _ hcm
        have h2 : sizeOf (FsTree.mk op ro children)
            = 1 + sizeOf op + sizeOf ro + sizeOf children := by
          simp [FsTree.mk.sizeOf_spec]
        omega
      have := ihn sub hsz (path ++ [name]) x hx'
      exact List.IsPrefix.trans (List.prefix_append path [name]) this

theorem scanErrsOf_shape (cfg : Config) (path : RPath)
    (children : List (ChildKind × FsTree)) :
    ∀ e ∈ scanErrsOf cfg path children, ∃ q r, e = Event.err q r := by
  intro e he
  simp only [scanErrsOf, List.mem_filterMap] at he
  obtain ⟨c, hc, hfc⟩ := he
  rcases c with ⟨k, sub⟩
  cases k with
  | readErr =>
    dsimp only [childEvent] at hfc
    simp only [Option.some.injEq] at hfc
    exact ⟨path, .readEntry, hfc.symm⟩
  | typeErr name =>
    dsimp only [childEvent] at hfc
    split at hfc
    · simp at hfc
    · simp only [Option.some.injEq] at hfc
      exact ⟨path ++ [name], .metadata, hfc.symm⟩
  | file name =>
    dsimp only [childEvent] at hfc
    simp at hfc
  | dir name =>
    dsimp only [childEvent] at hfc
    split at hfc
    · simp at hfc
    · cases hop : sub.op with
      | repo => rw [hop] at hfc; simp at hfc
      | notRepo => rw [hop] at hfc; simp at hfc
      | openErr =>
        rw [hop] at hfc
        simp only [Option.some.injEq] at hfc
        exact ⟨path ++ [name], .openRepo, hfc.symm⟩

theorem readDir_mem_walkInner (cfg : Config) (n : Nat) :
    ∀ (t : FsTree), sizeOf t ≤ n → ∀ (path p : RPath),
      Event.readDir p ∈ walk_inner cfg path t →
      p = path ∨ ∃ x ∈ subdirsOf cfg path t.children,
        Event.readDir p ∈ walk_inner cfg x.1 x.2 := by
  intro t ht path p hp
  rcases t with ⟨op, ro, children⟩
  cases ro with
  | false =>
    rw [walk_inner, if_neg (by simp)] at hp
    rcases List.mem_cons.mp hp with h | h
    · injection h with h; exact Or.inl h
    · rcases List.mem_cons.mp h with h | h
      · cases h
      · cases h
  | true =>
    rw [c8_per_directory_order] at hp
    rcases List.mem_cons.mp hp with h | h
    · injection h with h; exact Or.inl h
    rcases List.mem_append.mp h with h | h
    rcases List.mem_append.mp h with h | h
    · obtain ⟨q, r, he⟩ := scanErrsOf_shape cfg path children _ h
      cases he
    · revert h
      split
      · intro h; cases h
      · intro h
        rcases List.mem_cons.mp h with h | h
        · cases h
        · obtain ⟨en, -, he⟩ := List.mem_map.mp h
          cases he
    · obtain ⟨l, hl, hpl⟩ := List.mem_flatten.mp h
      obtain ⟨x, hx, hfx⟩ := List.mem_map.mp hl
      exact Or.inr ⟨x, hx, hfx ▸ hpl⟩

theorem readDir_prefix (cfg : Config) (n : Nat) :
    ∀ (t : FsTree), sizeOf t ≤ n → ∀ (path p : RPath),
      Event.readDir p ∈ walk_inner cfg path t → path <+: p := by
  induction n with
  | zero =>
    intro t ht
    rcases t with ⟨op, ro, children⟩
    simp [FsTree.mk.sizeOf_spec] at ht
  | succ n ihn =>
    intro t ht path p hp
    rcases readDir_mem_walkInner cfg (n + 1) t ht path p hp with h | ⟨x, hx, hpx⟩
    · exact h ▸ List.prefix_rfl
    · rcases t with ⟨op, ro, children⟩
      simp only [FsTree.children] at hx
      obtain ⟨name, sub, hcm, hig, hop, hxe⟩ := subdirsOf_mem cfg path _ x hx
      have hsz : sizeOf sub ≤ n := by
        have h1 := sizeOf_child_lt _ _ _ hcm
        have h2 : sizeOf (FsTree.mk op ro children)
            = 1 + sizeOf op + sizeOf ro + sizeOf children := by
          simp [FsTree.mk.sizeOf_spec]
        omega
      subst hxe
      have := ihn sub hsz (path ++ [name]) p hpx
      exact List.IsPrefix.trans (List.prefix_append path [name]) this

theorem mem_dirNames (children : List (ChildKind × FsTree)) (name : String)
    (sub : FsTree) (h : (ChildKind.dir name, sub) ∈ children) :
    name ∈ dirNames children :=
  List.mem_filterMap.mpr ⟨(ChildKind.dir name, sub), h, rfl⟩

theorem dir_child_unique (children : List (ChildKind × FsTree))
    (h : namesNodup (dirNames children) = true) :
    ∀ name s₁ s₂, (ChildKind.dir name, s₁) ∈ children →
      (ChildKind.dir name, s₂) ∈ children → s₁ = s₂ := by
  induction children with
  | nil => intro name s₁ s₂ h1; cases h1
  | cons c rest ih =>
    intro name s₁ s₂ h1 h2
    rcases c with ⟨k, sub⟩
    cases k with
    | dir nm =>
      have hdn : dirNames ((ChildKind.dir nm, sub) :: rest) = nm :: dirNames rest := by
        simp [dirNames, List.filterMap_cons]
      rw [hdn] at h
      simp only [namesNodup, Bool.and_eq_true, Bool.not_eq_true'] at h
      obtain ⟨hnc, hrest⟩ := h
      have hnmem : nm ∉ dirNames rest := by
        intro hm
        rw [show (dirNames rest).contains nm = List.elem nm (dirNames rest) from rfl,
          List.elem_iff.mpr hm] at hnc
        cases hnc
      rcases List.mem_cons.mp h1 with he1 | h1' <;>
        rcases List.mem_cons.mp h2 with he2 | h2'
      · injection he1 with ha1 hb1
        injection he2 with ha2 hb2
        rw [hb1, hb2]
      · injection he1 with ha1 hb1
        injection ha1 with hn1
        rw [← hn1] at hnmem
        exact absurd (mem_dirNames rest name s₂ h2') hnmem
      · injection he2 with ha2 hb2
        injection ha2 with hn2
        rw [← hn2] at hnmem
        exact absurd (mem_dirNames rest name s₁ h1') hnmem
      · exact ih hrest name s₁ s₂ h1' h2'
    | readErr =>
      have hdn : dirNames ((ChildKind.readErr, sub) :: rest) = dirNames rest := by
        simp [dirNames, List.filterMap_cons]
      rw [hdn] at h
      rcases List.mem_cons.mp h1 with he1 | h1'
      · cases he1
      rcases List.mem_cons.mp h2 with he2 | h2'
      · cases he2
      exact ih h name s₁ s₂ h1' h2'
    | typeErr nm =>
      have hdn : dirNames ((ChildKind.typeErr nm, sub) :: rest) = dirNames rest := by
        simp [dirNames, List.filterMap_cons]
      rw [hdn] at h
      rcases List.mem_cons.mp h1 with he1 | h1'
      · cases he1
      rcases List.mem_cons.mp h2 with he2 | h2'
      · cases he2
      exact ih h name s₁ s₂ h1' h2'
    | file nm =>
      have hdn : dirNames ((ChildKind.file nm, sub) :: rest) = dirNames rest := by
        simp [dirNames, List.filterMap_cons]
      rw [hdn] at h
      rcases List.mem_cons.mp h1 with he1 | h1'
      · cases he1
      rcases List.mem_cons.mp h2 with he2 | h2'
      · cases he2
      exact ih h name s₁ s₂ h1' h2'

theorem wellFormedChildren_mem (children : List (ChildKind × FsTree))
    (h : wellFormedChildren children = true) (name : String) (sub : FsTree)
    (hm : (ChildKind.dir name, sub) ∈ children) :
    wellFormed sub = true := by
  induction children with
  | nil => cases hm
  | cons c rest ih =>
    rcases c with ⟨k, sub'⟩
    cases k with
    | dir nm =>
      simp only [wellFormedChildren, Bool.and_eq_true] at h
      rcases List.mem_cons.mp hm with he | hm'
      · injection he with h1 h2
        rw [h2]
        exact h.1
      · exact ih h.2 hm'
    | readErr =>
      simp only [wellFormedChildren, Bool.and_eq_true] at h
      rcases List.mem_cons.mp hm with he | hm'
      · injection he with h1 h2
        injection h1
      · exact ih h.2 hm'
    | typeErr nm =>
      simp only [wellFormedChildren, Bool.and_eq_true] at h
      rcases List.mem_cons.mp hm with he | hm'
      · injection he with h1 h2
        injection h1
      · exact ih h.2 hm'
    | file nm =>
      simp only [wellFormedChildren, Bool.and_eq_true] at h
      rcases List.mem_cons.mp hm with he | hm'
      · injection he with h1 h2
        injection h1
      · exact ih h.2 hm'

theorem prefix_eq_of_length (l₁ l₂ p : List String) (h₁ : l₁ <+: p) (h₂ : l₂ <+: p)
    (hl : l₁.length = l₂.length) : l₁ = l₂ := by
  rcases List.prefix_or_prefix_of_prefix h₁ h₂ with h | h
  · exact h.sublist.eq_of_length hl
  · exact (h.sublist.eq_of_length hl.symm).symm

theorem walkInner_prune (cfg : Config) :
    ∀ (n : Nat) (t : FsTree), sizeOf t ≤ n → t.op = .notRepo →
      wellFormed t = true → ∀ (path p : RPath) (u : FsTree),
      (p, u) ∈ allDirs path t → u.op = .repo →
      Event.readDir p ∉ walk_inner cfg path t := by
  intro n
  induction n with
  | zero =>
    intro t ht
    rcases t with ⟨op, ro, children⟩
    simp [FsTree.mk.sizeOf_spec] at ht
  | succ n ihn =>
    intro t ht hop hwf path p u hmem hurepo hin
    rcases t with ⟨op, ro, children⟩
    simp only [FsTree.op] at hop
    subst hop
    have hsize : ∀ (k : ChildKind) (sub : FsTree), (k, sub) ∈ children → sizeOf sub ≤ n := by
      intro k sub hk
      have h1 := sizeOf_child_lt _ _ _ hk
      have h2 : sizeOf (FsTree.mk OpenResult.notRepo ro children)
          = 1 + sizeOf OpenResult.notRepo + sizeOf ro + sizeOf children := by
        simp [FsTree.mk.sizeOf_spec]
      omega
    have hchild_pref : ∀ name sub, (ChildKind.dir name, sub) ∈ children →
        (p, u) ∈ allDirs (path ++ [name]) sub → (path ++ [name]) <+: p := by
      intro name sub hk hm
      exact allDirs_prefix (sizeOf sub) sub (Nat.le_refl _) (path ++ [name]) (p, u) hm
    rcases readDir_mem_walkInner cfg (n + 1) _ ht path p hin with hp | ⟨x, hx, hpx⟩
    · -- the read is of this directory itself
      subst hp
      rcases mem_allDirs_head p _ (p, u) hmem with heq | hmem'
      · injection heq with h1 h2
        rw [h2] at hurepo
        simp [FsTree.op] at hurepo
      · simp only [FsTree.children] at hmem'
        obtain ⟨name, sub, hk, hm⟩ := (mem_allDirsChildren p children (p, u)).mp hmem'
        have := (hchild_pref name sub hk hm).length_le
        simp at this
    · -- the read happened inside a recursed subdirectory
      simp only [FsTree.children] at hx
      obtain ⟨named, subd, hkd, higd, hopd, hxe⟩ := subdirsOf_mem cfg path _ x hx
      subst hxe
      have hprefd : (path ++ [named]) <+: p :=
        readDir_prefix cfg (sizeOf subd) subd (Nat.le_refl _) (path ++ [named]) p hpx
      rcases mem_allDirs_head path _ (p, u) hmem with heq | hmem'
      · injection heq with h1 h2
        subst h1
        have := hprefd.length_le
        simp at this
      · simp only [FsTree.children] at hmem'
        obtain ⟨namec, subc, hkc, hm⟩ := (mem_allDirsChildren path children (p, u)).mp hmem'
        have hprefc : (path ++ [namec]) <+: p := hchild_pref namec subc hkc hm
        have hnames : namec = named := by
          have := prefix_eq_of_length (path ++ [namec]) (path ++ [named]) p hprefc hprefd
            (by simp)
          have := List.append_cancel_left this
          simpa using this
        subst hnames
        have hnodup : namesNodup (dirNames children) = true := by
          rw [wellFormed, Bool.and_eq_true] at hwf
          exact hwf.1
        have hsubs : subc = subd := dir_child_unique children hnodup namec subc subd hkc hkd
        subst hsubs
        have hwfc : wellFormed subc = true := by
          rw [wellFormed, Bool.and_eq_true] at hwf
          exact wellFormedChildren_mem children hwf.2 namec subc hkc
        exact ihn subc (hsize _ _ hkc) hopd hwfc (path ++ [namec]) p u hm hurepo hpx

/-- C3 (amended).  The multiset of entries the walker emits equals the
set of directories `D` such that either `D` is the start path and it
opens as a repository (the start path's ignore setting is never
consulted), or `D` is reachable from the start path through readable,
non-repository, non-ignored directories, opens as a repository, and has
`ignore ≠ true`.  In particular nothing below an ignored directory or
below another repository is emitted; and in a well-formed tree
(distinct directory names per listing) the walker never reads the
children of a directory that is itself a repository. -/
theorem c3_walk_emission (cfg : Config) (start : RPath) (t : FsTree)
    (hwf : wellFormed t = true) :
    (walkRepoPaths cfg start t).Perm (specRepos cfg start t)
      ∧ (∀ p u, (p, u) ∈ allDirs start t → u.op = .repo →
          Event.readDir p ∉ walk cfg start t) := by
  constructor
  · cases hop : t.op with
    | repo =>
      have : walkRepoPaths cfg start t = [start] := by
        simp [walkRepoPaths, walk, hop]
      rw [this, specRepos, hop]
    | notRepo =>
      have hl : walkRepoPaths cfg start t = repoPathsOf (walk_inner cfg start t) := by
        simp [walkRepoPaths, walk, hop, repoPathsOf]
      have hr : specRepos cfg start t = specInner cfg start t := by
        rw [specRepos, hop]
      rw [hl, hr]
      exact walkInner_repoPaths_perm cfg (sizeOf t) t start (Nat.le_refl _)
    | openErr =>
      have : walkRepoPaths cfg start t = [] := by
        simp [walkRepoPaths, walk, hop]
      rw [this, specRepos, hop]
  · intro p u hmem hurepo
    cases hop : t.op with
    | repo =>
      rw [walk, hop]
      intro hc
      rcases List.mem_cons.mp hc with h | h
      · cases h
      · cases h
    | notRepo =>
      rw [walk, hop]
      exact walkInner_prune cfg (sizeOf t) t (Nat.le_refl _) hop hwf start p u hmem hurepo
    | openErr =>
      rw [walk, hop]
      intro hc
      rcases List.mem_cons.mp hc with h | h
      · cases h
      · cases h

/-- Witness for C3 (amended) on a concrete well-formed tree: a root
with one repository child and one plain subdirectory. -/
theorem c3_walk_emission_witness :
    (walkRepoPaths ⟨Settings.default, ⟨[]⟩⟩ []
        (.mk .notRepo true [(.dir "a", .mk .repo true []), (.dir "b", .mk .notRepo true [])])).Perm
      (specRepos ⟨Settings.default, ⟨[]⟩⟩ []
        (.mk .notRepo true [(.dir "a", .mk .repo true []), (.dir "b", .mk .notRepo true [])]))
      ∧ (∀ p u, (p, u) ∈ allDirs []
            (.mk .notRepo true [(.dir "a", .mk .repo true []), (.dir "b", .mk .notRepo true [])]) →
          u.op = .repo →
          Event.readDir p ∉ walk ⟨Settings.default, ⟨[]⟩⟩ []
            (.mk .notRepo true [(.dir "a", .mk .repo true []), (.dir "b", .mk .notRepo true [])])) :=
  c3_walk_emission ⟨Settings.default, ⟨[]⟩⟩ []
    (.mk .notRepo true [(.dir "a", .mk .repo true []), (.dir "b", .mk .notRepo true [])])
    (by simp [wellFormed, wellFormedChildren, dirNames, namesNodup])

end MultiGit
